/-
Verification of the sequali low-level codec core
(src/sequali/function_dispatch.h): BAM 4-bit sequence decoding,
quality decoding, and canonical k-mer computation.

The C functions are embedded shallowly: byte buffers become
`Nat → Nat` (byte at index) or `List Nat`, machine integers become
`Nat` with explicit `% 2^64` / `% 2^256` truncation where the C type
would truncate, and the `int64_t` return value of the k-mer encoder
becomes `Int` via two's-complement conversion.
-/
import Mathlib

set_option maxRecDepth 10000

namespace Sequali

/-- Bytes of a string literal (all our table literals are ASCII). -/
def strBytes (s : String) : List Nat := s.data.map Char.toNat

/-- The 512-byte `code2base` table of `decode_bam_sequence_default`,
verbatim from the source. -/
def code2base : List Nat := strBytes (
    "===A=C=M=G=R=S=V=T=W=Y=H=K=D=B=N" ++
    "A=AAACAMAGARASAVATAWAYAHAKADABAN" ++
    "C=CACCCMCGCRCSCVCTCWCYCHCKCDCBCN" ++
    "M=MAMCMMMGMRMSMVMTMWMYMHMKMDMBMN" ++
    "G=GAGCGMGGGRGSGVGTGWGYGHGKGDGBGN" ++
    "R=RARCRMRGRRRSRVRTRWRYRHRKRDRBRN" ++
    "S=SASCSMSGSRSSSVSTSWSYSHSKSDSBSN" ++
    "V=VAVCVMVGVRVSVVVTVWVYVHVKVDVBVN" ++
    "T=TATCTMTGTRTSTVTTTWTYTHTKTDTBTN" ++
    "W=WAWCWMWGWRWSWVWTWWWYWHWKWDWBWN" ++
    "Y=YAYCYMYGYRYSYVYTYWYYYHYKYDYBYN" ++
    "H=HAHCHMHGHRHSHVHTHWHYHHHKHDHBHN" ++
    "K=KAKCKMKGKRKSKVKTKWKYKHKKKDKBKN" ++
    "D=DADCDMDGDRDSDVDTDWDYDHDKDDDBDN" ++
    "B=BABCBMBGBRBSBVBTBWBYBHBKBDBBBN" ++
    "N=NANCNMNGNRNSNVNTNWNYNHNKNDNBNN")

/-- The 16-symbol nucleotide alphabet `"=ACMGRSVTWYHKDBN"`. -/
def nuc_lookup : List Nat := strBytes "=ACMGRSVTWYHKDBN"

/-- The pair-decoding loop of `decode_bam_sequence_default`: decode `m`
packed bytes into `2*m` ASCII bytes via the `code2base` table. -/
def decodePairs (src : Nat → Nat) (m : Nat) : List Nat :=
  (List.range m).flatMap (fun i =>
    [code2base.getD (src i * 2) 0, code2base.getD (src i * 2 + 1) 0])

/-- `decode_bam_sequence_default`: decode `length` bases from the packed
buffer `src`; an odd trailing base comes from the high nibble of the
last packed byte. The C function writes into `dest`; we return the list
of written bytes. -/
def decode_bam_sequence_default (src : Nat → Nat) (length : Nat) : List Nat :=
  decodePairs src (length / 2) ++
    (if length % 2 = 1 then [nuc_lookup.getD (src (length / 2) / 2^4) 0] else [])

/- SSE intrinsic model: a `__m128i` is a list of 16 byte values. -/

/-- `_mm_shuffle_epi8`: byte `i` of the result is 0 when mask byte `i`
has its high bit set, else source byte `mask i % 16`. -/
def mm_shuffle_epi8 (a mask : List Nat) : List Nat :=
  mask.map (fun m => if 128 ≤ m then 0 else a.getD (m % 16) 0)

/-- Little-endian value of a list of bytes. -/
def bytesToNat (bs : List Nat) : Nat := bs.foldr (fun b acc => b + 256 * acc) 0

/-- The 8 little-endian bytes of a 64-bit value. -/
def natToBytes8 (x : Nat) : List Nat := (List.range 8).map (fun i => x / 256 ^ i % 256)

/-- `_mm_srli_epi64`: shift each 64-bit lane right by `count` bits. -/
def mm_srli_epi64 (a : List Nat) (count : Nat) : List Nat :=
  natToBytes8 (bytesToNat (a.take 8) >>> count) ++
    natToBytes8 (bytesToNat (a.drop 8) >>> count)

/-- `_mm_or_si128` (byte-wise, equivalent to the 128-bit bitwise or). -/
def mm_or_si128 (a b : List Nat) : List Nat := List.zipWith (fun x y => x ||| y) a b

/-- `_mm_and_si128` (byte-wise, equivalent to the 128-bit bitwise and). -/
def mm_and_si128 (a b : List Nat) : List Nat := List.zipWith (fun x y => x &&& y) a b

/-- `first_upper_shuffle` constant. -/
def first_upper_shuffle : List Nat :=
  [0, 0xff, 1, 0xff, 2, 0xff, 3, 0xff, 4, 0xff, 5, 0xff, 6, 0xff, 7, 0xff]

/-- `first_lower_shuffle` constant. -/
def first_lower_shuffle : List Nat :=
  [0xff, 0, 0xff, 1, 0xff, 2, 0xff, 3, 0xff, 4, 0xff, 5, 0xff, 6, 0xff, 7]

/-- `second_upper_shuffle` constant. -/
def second_upper_shuffle : List Nat :=
  [8, 0xff, 9, 0xff, 10, 0xff, 11, 0xff, 12, 0xff, 13, 0xff, 14, 0xff, 15, 0xff]

/-- `second_lower_shuffle` constant. -/
def second_lower_shuffle : List Nat :=
  [0xff, 8, 0xff, 9, 0xff, 10, 0xff, 11, 0xff, 12, 0xff, 13, 0xff, 14, 0xff, 15]

/-- One iteration of the SSSE3 loop body on the 16 packed bytes at the
cursor: produces the 32 decoded bytes stored by the two
`_mm_storeu_si128` calls. -/
def ssse3_block (src : Nat → Nat) : List Nat :=
  let encoded := (List.range 16).map src
  let nuc_lookup_vec := nuc_lookup
  let first_upper := mm_shuffle_epi8 encoded first_upper_shuffle
  let first_lower := mm_shuffle_epi8 encoded first_lower_shuffle
  let shifted_first_upper := mm_srli_epi64 first_upper 4
  let first_merged := mm_or_si128 shifted_first_upper first_lower
  let first_indexes := mm_and_si128 first_merged (List.replicate 16 0b1111)
  let first_nucleotides := mm_shuffle_epi8 nuc_lookup_vec first_indexes
  let second_upper := mm_shuffle_epi8 encoded second_upper_shuffle
  let second_lower := mm_shuffle_epi8 encoded second_lower_shuffle
  let shifted_second_upper := mm_srli_epi64 second_upper 4
  let second_merged := mm_or_si128 shifted_second_upper second_lower
  let second_indexes := mm_and_si128 second_merged (List.replicate 16 0b1111)
  let second_nucleotides := mm_shuffle_epi8 nuc_lookup_vec second_indexes
  first_nucleotides ++ second_nucleotides

/-- `decode_bam_sequence_ssse3`: while more than 32 bases remain
(`dest_cursor < dest_end_ptr - 2*sizeof(__m128i)`), decode a 16-byte
block into 32 bases; the remainder is finished by the reference
decoder. -/
def decode_bam_sequence_ssse3 (src : Nat → Nat) (length : Nat) : List Nat :=
  if 32 < length then
    ssse3_block src ++ decode_bam_sequence_ssse3 (fun i => src (i + 16)) (length - 32)
  else
    decode_bam_sequence_default src length
termination_by length

/-- `decode_bam_qualities`: `dest[i] = encoded_qualities[i] + 33`, the
store into a `uint8_t` truncating modulo 256. -/
def decode_bam_qualities (src : Nat → Nat) (length : Nat) : List Nat :=
  (List.range length).map (fun i => (src i + 33) % 256)

/-! ### C8: quality decoding -/

/-- C8 counterexample: with the source byte 250 the `uint8_t` store
truncates, so the output is not `src + 33`. -/
theorem decode_qualities_not_plain_add :
    decode_bam_qualities (fun _ => 250) 1 ≠ [250 + 33] := by decide

/-- C8 (amended): `decode_bam_qualities` writes exactly `n` bytes,
`dest[i] = (src[i] + 33) mod 256`; this equals `src[i] + 33` whenever
`src[i] ≤ 222` (in particular for all `src[i]` in `[0,93]`, giving a
byte in `[33,126]`), and for `n = 0` nothing is written. -/
theorem decode_qualities_spec (src : Nat → Nat) (n : Nat) :
    (decode_bam_qualities src n).length = n ∧
    (∀ i, i < n → (decode_bam_qualities src n).getD i 0 = (src i + 33) % 256) ∧
    (∀ i, i < n → src i ≤ 222 →
      (decode_bam_qualities src n).getD i 0 = src i + 33 ∧
      (src i ≤ 93 → 33 ≤ src i + 33 ∧ src i + 33 ≤ 126)) ∧
    decode_bam_qualities src 0 = [] := by
  refine ⟨by simp [decode_bam_qualities], ?_, ?_, by simp [decode_bam_qualities]⟩
  · intro i hi
    simp [decode_bam_qualities, List.getD, hi]
  · intro i hi hle
    have h1 : (decode_bam_qualities src n).getD i 0 = (src i + 33) % 256 := by
      simp [decode_bam_qualities, List.getD, hi]
    refine ⟨?_, fun h93 => ⟨by omega, by omega⟩⟩
    rw [h1]; omega

/-- Witness for C8's amended theorem at a concrete input. -/
theorem decode_qualities_spec_witness :
    (decode_bam_qualities (fun _ => 40) 2).getD 0 0 = 73 := by
  have h := (decode_qualities_spec (fun _ => 40) 2).2.2.1 0 (by decide) (by decide)
  exact h.1

/-! ### C7: the reference decoder is a context-free nibble lookup -/

/-- Each pair of entries of `code2base` agrees with looking up the high
and low nibble in `nuc_lookup` (checked over all 256 byte values). -/
theorem code2base_agrees : ∀ b, b < 256 →
    code2base.getD (b * 2) 0 = nuc_lookup.getD (b / 16) 0 ∧
    code2base.getD (b * 2 + 1) 0 = nuc_lookup.getD (b % 16) 0 := by decide

/-- The nibble of the packed buffer that determines output position `i`:
high nibble of byte `i/2` for even `i`, low nibble for odd `i`. -/
def nibbleAt (src : Nat → Nat) (i : Nat) : Nat :=
  if i % 2 = 0 then src (i / 2) / 16 else src (i / 2) % 16

theorem decodePairs_eq_map (src : Nat → Nat) (m : Nat) (h : ∀ i, src i < 256) :
    decodePairs src m = (List.range (2 * m)).map (fun i => nuc_lookup.getD (nibbleAt src i) 0) := by
  induction m with
  | zero => simp [decodePairs]
  | succ t ih =>
      have h2 : 2 * (t + 1) = (2 * t + 1) + 1 := by ring
      rw [decodePairs, List.range_succ, List.flatMap_append, ← decodePairs,
        h2, List.range_succ, List.range_succ, List.map_append, List.map_append, ih]
      have ha := (code2base_agrees (src t) (h t)).1
      have hb := (code2base_agrees (src t) (h t)).2
      have e1 : nibbleAt src (2 * t) = src t / 16 := by
        simp [nibbleAt, Nat.mul_div_cancel_left]
      have e2 : nibbleAt src (2 * t + 1) = src t % 16 := by
        have : (2 * t + 1) / 2 = t := by omega
        simp [nibbleAt, this, Nat.mul_add_mod]
      simp only [List.getD_eq_getElem?_getD] at ha hb
      simp [List.flatMap, e1, e2, ha, hb]

theorem getD_range_map (f : Nat → Nat) (t i : Nat) (h : i < t) :
    ((List.range t).map f).getD i 0 = f i := by
  simp [List.getD_eq_getElem?_getD, List.getElem?_map, List.getElem?_range, h]

theorem length_decodePairs (src : Nat → Nat) (m : Nat) : (decodePairs src m).length = 2 * m := by
  induction m with
  | zero => simp [decodePairs]
  | succ t ih =>
      rw [decodePairs, List.range_succ, List.flatMap_append, ← decodePairs]
      simp [List.flatMap] at ih ⊢
      omega

/-- C7: the reference decoder writes exactly `n` bytes, with output
position `i` equal to `nuc_lookup` indexed by the `i`-th 4-bit code
(high nibble of packed byte `i/2` for even `i`, low nibble for odd
`i`); for odd `n` the final base uses only the high nibble of the last
byte.  The formula is independent of position parity bookkeeping and
neighboring nibbles. -/
theorem decode_default_nibble_spec (src : Nat → Nat) (n : Nat) (h : ∀ i, src i < 256) :
    (decode_bam_sequence_default src n).length = n ∧
    (∀ i, i < n →
      (decode_bam_sequence_default src n).getD i 0 = nuc_lookup.getD (nibbleAt src i) 0) := by
  constructor
  · rw [decode_bam_sequence_default]
    rcases Nat.even_or_odd n with he | ho
    · have : n % 2 = 0 := Nat.even_iff.mp he
      simp [this, length_decodePairs]
      omega
    · have : n % 2 = 1 := Nat.odd_iff.mp ho
      simp [this, length_decodePairs]
      omega
  · intro i hi
    rw [decode_bam_sequence_default, decodePairs_eq_map src _ h]
    rcases Nat.lt_or_ge i (2 * (n / 2)) with hlt | hge
    · rw [List.getD_eq_getElem?_getD, List.getElem?_append_left (by simpa using hlt)]
      rw [← List.getD_eq_getElem?_getD, getD_range_map _ _ _ hlt]
    · -- i is the final odd position
      have hodd : n % 2 = 1 := by omega
      have hieq : i = 2 * (n / 2) := by omega
      rw [List.getD_eq_getElem?_getD, List.getElem?_append_right (by simpa using hge)]
      have hlen : (List.map (fun i => nuc_lookup.getD (nibbleAt src i) 0) (List.range (2 * (n / 2)))).length = 2 * (n / 2) := by
        simp
      rw [hlen, hodd, hieq]
      have hnib : nibbleAt src (2 * (n / 2)) = src (n / 2) / 16 := by
        simp [nibbleAt, Nat.mul_div_cancel_left]
      simp [hnib]

/-! ### C1: the SSSE3 decoder refines the reference decoder -/

theorem land_fifteen (x : Nat) : x &&& 15 = x % 16 := by
  have h := Nat.and_pow_two_sub_one_eq_mod x 4
  norm_num at h
  exact h

/-- Effect of the 64-bit-lane right shift by 4 on a lane whose odd
bytes are zero (the result of an upper-nibble shuffle). -/
theorem srli4_pattern (a b c d : Nat) (ha : a < 256) (hb : b < 256)
    (hc : c < 256) (hd : d < 256) :
    natToBytes8 (bytesToNat [a, 0, b, 0, c, 0, d, 0] >>> 4) =
      [a / 16, b % 16 * 16, b / 16, c % 16 * 16, c / 16, d % 16 * 16, d / 16, 0] := by
  have hx : bytesToNat [a, 0, b, 0, c, 0, d, 0] =
      a + 65536 * b + 4294967296 * c + 281474976710656 * d := by
    simp [bytesToNat]; ring
  rw [hx, Nat.shiftRight_eq_div_pow]
  norm_num [natToBytes8, List.range_succ]
  refine ⟨by omega, by omega, by omega, by omega, by omega, by omega, by omega, by omega⟩

/-- Merged-index shape at even output positions. -/
theorem idx_even (a : Nat) (ha : a < 256) :
    (if 128 ≤ (a / 16 ||| 0) &&& 15 then 0
     else nuc_lookup.getD (((a / 16 ||| 0) &&& 15) % 16) 0) = nuc_lookup.getD (a / 16) 0 := by
  have h1 : (a / 16 ||| 0) &&& 15 = a / 16 := by
    rw [Nat.or_zero, land_fifteen]
    omega
  rw [h1, if_neg (by omega)]
  congr 1
  omega

/-- Merged-index shape at odd output positions (the garbage
`y % 16 * 16` from the neighboring byte is masked away). -/
theorem idx_odd (a y : Nat) (ha : a < 256) :
    (if 128 ≤ (y % 16 * 16 ||| a) &&& 15 then 0
     else nuc_lookup.getD (((y % 16 * 16 ||| a) &&& 15) % 16) 0) = nuc_lookup.getD (a % 16) 0 := by
  have h1 : (y % 16 * 16 ||| a) &&& 15 = a % 16 := by
    rw [Nat.and_distrib_right, land_fifteen, land_fifteen, Nat.mul_mod_left]
    simp
  rw [h1, if_neg (by omega)]
  congr 1
  omega

/-- Merged-index shape at the last odd position of a lane. -/
theorem idx_last (a : Nat) (ha : a < 256) :
    (if 128 ≤ (0 ||| a) &&& 15 then 0
     else nuc_lookup.getD (((0 ||| a) &&& 15) % 16) 0) = nuc_lookup.getD (a % 16) 0 := by
  have h1 : (0 ||| a) &&& 15 = a % 16 := by
    rw [Nat.zero_or, land_fifteen]
  rw [h1, if_neg (by omega)]
  congr 1
  omega

/-- One SSSE3 iteration decodes its 16 packed bytes exactly like the
reference pair loop. -/
theorem ssse3_block_eq (src : Nat → Nat) (h : ∀ i, src i < 256) :
    ssse3_block src = decodePairs src 16 := by
  rw [decodePairs_eq_map src 16 h]
  rw [ssse3_block]
  show mm_shuffle_epi8 nuc_lookup
      (mm_and_si128
        (mm_or_si128
          (mm_srli_epi64 (mm_shuffle_epi8 ((List.range 16).map src) first_upper_shuffle) 4)
          (mm_shuffle_epi8 ((List.range 16).map src) first_lower_shuffle))
        (List.replicate 16 0b1111)) ++
      mm_shuffle_epi8 nuc_lookup
      (mm_and_si128
        (mm_or_si128
          (mm_srli_epi64 (mm_shuffle_epi8 ((List.range 16).map src) second_upper_shuffle) 4)
          (mm_shuffle_epi8 ((List.range 16).map src) second_lower_shuffle))
        (List.replicate 16 0b1111)) = _
  have hrange : (List.range 16).map src =
      [src 0, src 1, src 2, src 3, src 4, src 5, src 6, src 7,
       src 8, src 9, src 10, src 11, src 12, src 13, src 14, src 15] := by
    rfl
  rw [hrange]
  have hu1 : mm_shuffle_epi8
      [src 0, src 1, src 2, src 3, src 4, src 5, src 6, src 7,
       src 8, src 9, src 10, src 11, src 12, src 13, src 14, src 15] first_upper_shuffle =
      [src 0, 0, src 1, 0, src 2, 0, src 3, 0] ++ [src 4, 0, src 5, 0, src 6, 0, src 7, 0] := by
    rfl
  have hu2 : mm_shuffle_epi8
      [src 0, src 1, src 2, src 3, src 4, src 5, src 6, src 7,
       src 8, src 9, src 10, src 11, src 12, src 13, src 14, src 15] second_upper_shuffle =
      [src 8, 0, src 9, 0, src 10, 0, src 11, 0] ++ [src 12, 0, src 13, 0, src 14, 0, src 15, 0] := by
    rfl
  rw [hu1, hu2]
  have hsr : ∀ a b c d e f g k : Nat, a < 256 → b < 256 → c < 256 → d < 256 →
      e < 256 → f < 256 → g < 256 → k < 256 →
      mm_srli_epi64 ([a, 0, b, 0, c, 0, d, 0] ++ [e, 0, f, 0, g, 0, k, 0]) 4 =
        [a / 16, b % 16 * 16, b / 16, c % 16 * 16, c / 16, d % 16 * 16, d / 16, 0] ++
        [e / 16, f % 16 * 16, f / 16, g % 16 * 16, g / 16, k % 16 * 16, k / 16, 0] := by
    intro a b c d e f g k ha hb hc hd he hf hg hk
    rw [mm_srli_epi64]
    rw [show List.take 8 ([a, 0, b, 0, c, 0, d, 0] ++ [e, 0, f, 0, g, 0, k, 0]) =
        [a, 0, b, 0, c, 0, d, 0] from rfl,
      show List.drop 8 ([a, 0, b, 0, c, 0, d, 0] ++ [e, 0, f, 0, g, 0, k, 0]) =
        [e, 0, f, 0, g, 0, k, 0] from rfl]
    rw [srli4_pattern a b c d ha hb hc hd, srli4_pattern e f g k he hf hg hk]
  rw [hsr _ _ _ _ _ _ _ _ (h 0) (h 1) (h 2) (h 3) (h 4) (h 5) (h 6) (h 7),
      hsr _ _ _ _ _ _ _ _ (h 8) (h 9) (h 10) (h 11) (h 12) (h 13) (h 14) (h 15)]
  show mm_shuffle_epi8 nuc_lookup
      (mm_and_si128 (mm_or_si128
        [src 0 / 16, src 1 % 16 * 16, src 1 / 16, src 2 % 16 * 16, src 2 / 16,
         src 3 % 16 * 16, src 3 / 16, 0, src 4 / 16, src 5 % 16 * 16, src 5 / 16,
         src 6 % 16 * 16, src 6 / 16, src 7 % 16 * 16, src 7 / 16, 0]
        [0, src 0, 0, src 1, 0, src 2, 0, src 3, 0, src 4, 0, src 5, 0, src 6, 0, src 7])
        (List.replicate 16 0b1111)) ++
      mm_shuffle_epi8 nuc_lookup
      (mm_and_si128 (mm_or_si128
        [src 8 / 16, src 9 % 16 * 16, src 9 / 16, src 10 % 16 * 16, src 10 / 16,
         src 11 % 16 * 16, src 11 / 16, 0, src 12 / 16, src 13 % 16 * 16, src 13 / 16,
         src 14 % 16 * 16, src 14 / 16, src 15 % 16 * 16, src 15 / 16, 0]
        [0, src 8, 0, src 9, 0, src 10, 0, src 11, 0, src 12, 0, src 13, 0, src 14, 0, src 15])
        (List.replicate 16 0b1111)) = _
  simp only [mm_or_si128, mm_and_si128, mm_shuffle_epi8, List.zipWith, List.map,
    List.replicate]
  rw [idx_even _ (h 0), idx_odd _ _ (h 0), idx_even _ (h 1), idx_odd _ _ (h 1),
      idx_even _ (h 2), idx_odd _ _ (h 2), idx_even _ (h 3), idx_last _ (h 3),
      idx_even _ (h 4), idx_odd _ _ (h 4), idx_even _ (h 5), idx_odd _ _ (h 5),
      idx_even _ (h 6), idx_odd _ _ (h 6), idx_even _ (h 7), idx_last _ (h 7),
      idx_even _ (h 8), idx_odd _ _ (h 8), idx_even _ (h 9), idx_odd _ _ (h 9),
      idx_even _ (h 10), idx_odd _ _ (h 10), idx_even _ (h 11), idx_last _ (h 11),
      idx_even _ (h 12), idx_odd _ _ (h 12), idx_even _ (h 13), idx_odd _ _ (h 13),
      idx_even _ (h 14), idx_odd _ _ (h 14), idx_even _ (h 15), idx_last _ (h 15)]
  rfl

theorem decodePairs_split (src : Nat → Nat) (m : Nat) :
    decodePairs src (16 + m) = decodePairs src 16 ++ decodePairs (fun i => src (i + 16)) m := by
  simp only [decodePairs]
  rw [List.range_add, List.flatMap_append, List.flatMap_map]
  exact congrArg _ (congrArg _ (funext fun a => by simp [Nat.add_comm]))

theorem default_split (src : Nat → Nat) (n : Nat) (h32 : 32 ≤ n) :
    decode_bam_sequence_default src n =
      decodePairs src 16 ++ decode_bam_sequence_default (fun i => src (i + 16)) (n - 32) := by
  rw [decode_bam_sequence_default, decode_bam_sequence_default]
  have hq : n / 2 = 16 + (n - 32) / 2 := by omega
  have hm : n % 2 = (n - 32) % 2 := by omega
  have hix : n / 2 = (n - 32) / 2 + 16 := by omega
  rw [hq, decodePairs_split, List.append_assoc]
  congr 2
  rw [← hm]
  rcases Nat.eq_zero_or_pos (n % 2) with h0 | h1
  · simp [h0]
  · have : n % 2 = 1 := by omega
    simp only [this, if_pos]
    have : 16 + (n - 32) / 2 = (n - 32) / 2 + 16 := by omega
    rw [this]

theorem ssse3_eq_default (n : Nat) : ∀ src : Nat → Nat, (∀ i, src i < 256) →
    decode_bam_sequence_ssse3 src n = decode_bam_sequence_default src n := by
  induction n using Nat.strong_induction_on with
  | _ n ih =>
    intro src h
    rw [decode_bam_sequence_ssse3]
    by_cases h32 : 32 < n
    · rw [if_pos h32, ssse3_block_eq src h,
        ih (n - 32) (by omega) _ (fun i => h (i + 16)),
        default_split src n (by omega)]
    · rw [if_neg h32]

/-- C1: for every packed input buffer and every length `n` (including
`n = 0` and `n = 1`), the vectorized decoder `decode_bam_sequence_ssse3`
produces output byte-identical to the reference decoder
`decode_bam_sequence_default`. -/
theorem decode_bam_sequence_ssse3_refines_default (src : Nat → Nat) (n : Nat)
    (h : ∀ i, src i < 256) :
    decode_bam_sequence_ssse3 src n = decode_bam_sequence_default src n :=
  ssse3_eq_default n src h

/-- Witness for C1 on a concrete 40-base buffer (exercising one vector
iteration plus the scalar tail). -/
theorem decode_bam_sequence_ssse3_refines_default_witness :
    decode_bam_sequence_ssse3 (fun i => (i * 7 + 3) % 256) 40 =
      decode_bam_sequence_default (fun i => (i * 7 + 3) % 256) 40 :=
  decode_bam_sequence_ssse3_refines_default (fun i => (i * 7 + 3) % 256) 40
    (fun i => Nat.mod_lt _ (by omega))

/-- Witness for C7 at a concrete buffer and length. -/
theorem decode_default_nibble_spec_witness :
    (decode_bam_sequence_default (fun i => (i * 31 + 5) % 256) 7).length = 7 :=
  (decode_default_nibble_spec (fun i => (i * 31 + 5) % 256) 7
    (fun i => Nat.mod_lt _ (by omega))).1

/-! ### The canonical k-mer encoder -/

/-- `NUCLEOTIDE_TO_TWOBIT`, verbatim: A/C/G/T (either case) map to
0/1/2/3, N/n to 8, everything else to 4. -/
def NUCLEOTIDE_TO_TWOBIT : List Nat := [
-- Control characters
    4, 4, 4, 4, 4, 4, 4, 4, 4, 4, 4, 4, 4, 4, 4, 4,
    4, 4, 4, 4, 4, 4, 4, 4, 4, 4, 4, 4, 4, 4, 4, 4,
-- Interpunction numbers etc
    4, 4, 4, 4, 4, 4, 4, 4, 4, 4, 4, 4, 4, 4, 4, 4,
    4, 4, 4, 4, 4, 4, 4, 4, 4, 4, 4, 4, 4, 4, 4, 4,
--     A, B, C, D, E, F, G, H, I, J, K, L, M, N, O,
    4, 0, 4, 1, 4, 4, 4, 2, 4, 4, 4, 4, 4, 4, 8, 4,
--  P, Q, R, S, T, U, V, W, X, Y, Z,
    4, 4, 4, 4, 3, 4, 4, 4, 4, 4, 4, 4, 4, 4, 4, 4,
--     a, b, c, d, e, f, g, h, i, j, k, l, m, n, o,
    4, 0, 4, 1, 4, 4, 4, 2, 4, 4, 4, 4, 4, 4, 8, 4,
--  p, q, r, s, t, u, v, w, x, y, z,
    4, 4, 4, 4, 3, 4, 4, 4, 4, 4, 4, 4, 4, 4, 4, 4]

def TWOBIT_UNKNOWN_CHAR : Int := -1

def TWOBIT_N_CHAR : Int := -2

/-- One mask-and-shift swap step of `reverse_complement_kmer`
(all four mask stages have this shape); left shifts truncate to
64 bits as in C. -/
def rck_stage (mask1 mask2 s x : Nat) : Nat :=
  ((x &&& mask1) >>> s) ||| (((x &&& mask2) <<< s) % 2 ^ 64)

/-- The first line of the swap cascade:
`(comp << 32) | (comp >> 32)` on `uint64_t`. -/
def swap_halves (x : Nat) : Nat := ((x <<< 32) % 2 ^ 64) ||| (x >>> 32)

/-- The progressive in-place swap cascade of `reverse_complement_kmer`:
32-bit halves, then 16-bit, 8-bit, nibble, and 2-bit-pair swaps. -/
def rck_cascade (x : Nat) : Nat :=
  rck_stage 0xCCCCCCCCCCCCCCCC 0x3333333333333333 2
    (rck_stage 0xF0F0F0F0F0F0F0F0 0x0F0F0F0F0F0F0F0F 4
      (rck_stage 0xFF00FF00FF00FF00 0x00FF00FF00FF00FF 8
        (rck_stage 0xFFFF0000FFFF0000 0x0000FFFF0000FFFF 16
          (swap_halves x))))

/-- `reverse_complement_kmer`: complement all bits (`~kmer`, i.e. xor
with the all-ones 64-bit word), reverse all 2-bit groups by the swap
cascade, then shift the groups down for k < 32. -/
def reverse_complement_kmer (kmer k : Nat) : Nat :=
  rck_cascade (kmer ^^^ (2 ^ 64 - 1)) >>> (64 - k * 2)

/-- The 4-bases-per-iteration loop of `sequence_to_canonical_kmer`.
The C loop condition `i < vector_end` compares signed values with
`vector_end = k - 4`; over naturals this is `i + 4 < k`.  Returns the
final `(i, kmer, all_nucs)`.  The structural `fuel` argument only
drives the recursion: any `fuel ≥ k - i` gives the loop's behaviour,
and the top-level entry passes `k`. -/
def kmer_vector_loop (s : Nat → Nat) (k : Nat) : Nat → Nat → Nat → Nat → Nat × Nat × Nat
  | fuel + 1, i, kmer, all_nucs =>
    if i + 4 < k then
      let nuc0 := NUCLEOTIDE_TO_TWOBIT.getD (s i) 0
      let nuc1 := NUCLEOTIDE_TO_TWOBIT.getD (s (i + 1)) 0
      let nuc2 := NUCLEOTIDE_TO_TWOBIT.getD (s (i + 2)) 0
      let nuc3 := NUCLEOTIDE_TO_TWOBIT.getD (s (i + 3)) 0
      let kchunk := (nuc0 <<< 6) ||| (nuc1 <<< 4) ||| (nuc2 <<< 2) ||| nuc3
      kmer_vector_loop s k fuel (i + 4) (((kmer <<< 8) % 2 ^ 64) ||| kchunk)
        (all_nucs ||| (nuc0 ||| nuc1 ||| nuc2 ||| nuc3))
    else (i, kmer, all_nucs)
  | 0, i, kmer, all_nucs => (i, kmer, all_nucs)

/-- The per-base tail loop of `sequence_to_canonical_kmer`. Returns the
final `(kmer, all_nucs)`.  Fuel as in `kmer_vector_loop`. -/
def kmer_scalar_loop (s : Nat → Nat) (k : Nat) : Nat → Nat → Nat → Nat → Nat × Nat
  | fuel + 1, i, kmer, all_nucs =>
    if i < k then
      let nuc := NUCLEOTIDE_TO_TWOBIT.getD (s i) 0
      kmer_scalar_loop s k fuel (i + 1) (((kmer <<< 2) % 2 ^ 64) ||| nuc) (all_nucs ||| nuc)
    else (kmer, all_nucs)
  | 0, _, kmer, all_nucs => (kmer, all_nucs)

/-- Conversion of a `uint64_t` value to the `int64_t` return type. -/
def toInt64 (v : Nat) : Int := if v < 2 ^ 63 then (v : Int) else (v : Int) - 2 ^ 64

/-- The tail of `sequence_to_canonical_kmer` after error detection:
return the smaller of the k-mer and its reverse complement (converted
to the `int64_t` return type). -/
def canonical_tail (kmer k : Nat) : Int :=
  let revcomp_kmer := reverse_complement_kmer kmer k
  if revcomp_kmer > kmer then toInt64 kmer else toInt64 revcomp_kmer

/-- `sequence_to_canonical_kmer`. -/
def sequence_to_canonical_kmer (s : Nat → Nat) (k : Nat) : Int :=
  let v := kmer_vector_loop s k k 0 0 0
  let r := kmer_scalar_loop s k k v.1 v.2.1 v.2.2
  let kmer := r.1
  let all_nucs := r.2
  if 3 < all_nucs then
    if all_nucs &&& 4 ≠ 0 then TWOBIT_UNKNOWN_CHAR
    else if all_nucs &&& 8 ≠ 0 then TWOBIT_N_CHAR
    else canonical_tail kmer k
  else canonical_tail kmer k

/-- Modelled from the spec: the naive per-base reference loop of §4.4
("a naive per-base loop" that shifts by 2 and ORs each code, against
which the 4-base-chunk loop must be observationally equal).  Identical
to `sequence_to_canonical_kmer` except that the whole window is
processed by the per-base loop. -/
def sequence_to_canonical_kmer_naive (s : Nat → Nat) (k : Nat) : Int :=
  let r := kmer_scalar_loop s k k 0 0 0
  let kmer := r.1
  let all_nucs := r.2
  if 3 < all_nucs then
    if all_nucs &&& 4 ≠ 0 then TWOBIT_UNKNOWN_CHAR
    else if all_nucs &&& 8 ≠ 0 then TWOBIT_N_CHAR
    else canonical_tail kmer k
  else canonical_tail kmer k

example : sequence_to_canonical_kmer (fun i => [65, 67, 71, 84].getD i 0) 4 = 0x1B := by decide
example : sequence_to_canonical_kmer (fun i => [65, 67, 71, 78].getD i 0) 4 = -2 := by decide
example : sequence_to_canonical_kmer (fun i => [65, 67, 71, 64].getD i 0) 4 = -1 := by decide
example : sequence_to_canonical_kmer (fun i => [65, 67, 71, 82].getD i 0) 4 = -1 := by decide
example : sequence_to_canonical_kmer
    (fun i => (List.replicate 31 84 ++ [65]).getD i 0) 32 = -4611686018427387904 := by decide

/-! ### Bit-level characterization of the reverse-complement cascade -/

theorem mask_testBit_gen (m s b : Nat) (hm : m < 2 ^ 64)
    (h : ∀ j, j < 64 → m.testBit j = decide (j / s % 2 = b)) :
    ∀ j, m.testBit j = (decide (j < 64) && decide (j / s % 2 = b)) := by
  intro j
  by_cases hj : j < 64
  · simp [hj, h j hj]
  · have hbig : m < 2 ^ j :=
      lt_of_lt_of_le hm (Nat.pow_le_pow_right (by norm_num) (by omega))
    simp [hj, Nat.testBit_lt_two_pow hbig]

theorem mask16_hi : ∀ j, (0xFFFF0000FFFF0000 : Nat).testBit j =
    (decide (j < 64) && decide (j / 16 % 2 = 1)) :=
  mask_testBit_gen _ 16 1 (by norm_num) (by decide)

theorem mask16_lo : ∀ j, (0x0000FFFF0000FFFF : Nat).testBit j =
    (decide (j < 64) && decide (j / 16 % 2 = 0)) :=
  mask_testBit_gen _ 16 0 (by norm_num) (by decide)

theorem mask8_hi : ∀ j, (0xFF00FF00FF00FF00 : Nat).testBit j =
    (decide (j < 64) && decide (j / 8 % 2 = 1)) :=
  mask_testBit_gen _ 8 1 (by norm_num) (by decide)

theorem mask8_lo : ∀ j, (0x00FF00FF00FF00FF : Nat).testBit j =
    (decide (j < 64) && decide (j / 8 % 2 = 0)) :=
  mask_testBit_gen _ 8 0 (by norm_num) (by decide)

theorem mask4_hi : ∀ j, (0xF0F0F0F0F0F0F0F0 : Nat).testBit j =
    (decide (j < 64) && decide (j / 4 % 2 = 1)) :=
  mask_testBit_gen _ 4 1 (by norm_num) (by decide)

theorem mask4_lo : ∀ j, (0x0F0F0F0F0F0F0F0F : Nat).testBit j =
    (decide (j < 64) && decide (j / 4 % 2 = 0)) :=
  mask_testBit_gen _ 4 0 (by norm_num) (by decide)

theorem mask2_hi : ∀ j, (0xCCCCCCCCCCCCCCCC : Nat).testBit j =
    (decide (j < 64) && decide (j / 2 % 2 = 1)) :=
  mask_testBit_gen _ 2 1 (by norm_num) (by decide)

theorem mask2_lo : ∀ j, (0x3333333333333333 : Nat).testBit j =
    (decide (j < 64) && decide (j / 2 % 2 = 0)) :=
  mask_testBit_gen _ 2 0 (by norm_num) (by decide)

/-- Each swap step exchanges adjacent blocks of `s` bits. -/
theorem rck_stage_testBit (m1 m2 s x : Nat) (hs : 0 < s) (hx : x < 2 ^ 64)
    (h1 : ∀ j, m1.testBit j = (decide (j < 64) && decide (j / s % 2 = 1)))
    (h2 : ∀ j, m2.testBit j = (decide (j < 64) && decide (j / s % 2 = 0))) :
    ∀ i, (rck_stage m1 m2 s x).testBit i =
      (decide (i < 64) &&
        (if i / s % 2 = 0 then x.testBit (i + s) else x.testBit (i - s))) := by
  intro i
  have hx64 : ∀ j, 64 ≤ j → x.testBit j = false := fun j hj =>
    Nat.testBit_lt_two_pow
      (lt_of_lt_of_le hx (Nat.pow_le_pow_right (by norm_num) hj))
  rw [rck_stage]
  simp only [Nat.testBit_or, Nat.testBit_shiftRight, Nat.testBit_shiftLeft,
    Nat.testBit_mod_two_pow, Nat.testBit_and, h1, h2]
  have hsum : (s + i) / s = i / s + 1 := by
    rw [Nat.add_comm, Nat.add_div_right _ hs]
  have hdivpos : s ≤ i → (i - s + s) / s = (i - s) / s + 1 := fun _ =>
    Nat.add_div_right _ hs
  by_cases hp : i / s % 2 = 0
  · -- the block at i moves up: take the bit from i + s
    have h1' : (s + i) / s % 2 = 1 := by rw [hsum]; omega
    by_cases hsle : s ≤ i
    · have hms : ¬ ((i - s) / s % 2 = 0) := by
        have h' := hdivpos hsle
        rw [Nat.sub_add_cancel hsle] at h'
        omega
      by_cases hi : i < 64
      · by_cases his : s + i < 64
        · have hc : x.testBit (s + i) = x.testBit (i + s) := by rw [Nat.add_comm]
          simp [hi, his, hc, hp, h1', hms]
        · have hz1 : x.testBit (s + i) = false := hx64 _ (by omega)
          have hz2 : x.testBit (i + s) = false := hx64 _ (by omega)
          simp [hi, his, hz1, hz2, hp, h1', hms]
      · have hz1 : x.testBit (s + i) = false := hx64 _ (by omega)
        simp [hi, hz1, hp, h1', hms]
    · by_cases hi : i < 64
      · by_cases his : s + i < 64
        · have hc : x.testBit (s + i) = x.testBit (i + s) := by rw [Nat.add_comm]
          simp [hi, his, hc, hp, h1', hsle]
        · have hz1 : x.testBit (s + i) = false := hx64 _ (by omega)
          have hz2 : x.testBit (i + s) = false := hx64 _ (by omega)
          simp [hi, his, hz1, hz2, hp, h1', hsle]
      · have hz1 : x.testBit (s + i) = false := hx64 _ (by omega)
        simp [hi, hz1, hp, h1', hsle]
  · -- the block at i moves down: take the bit from i - s
    have h1' : ¬ ((s + i) / s % 2 = 1) := by rw [hsum]; omega
    have hsle : s ≤ i := by
      rcases Nat.lt_or_ge i s with hlt | hge
      · rw [Nat.div_eq_of_lt hlt] at hp; omega
      · exact hge
    have hms : (i - s) / s % 2 = 0 := by
      have h' := hdivpos hsle
      rw [Nat.sub_add_cancel hsle] at h'
      omega
    by_cases hi : i < 64
    · have hims : i - s < 64 := by omega
      simp [hi, hsle, hims, hp, h1', hms]
    · simp [hi, hp, h1', hms]

/-- The half swap exchanges the two 32-bit blocks. -/
theorem swap_halves_testBit (x : Nat) (hx : x < 2 ^ 64) :
    ∀ i, (swap_halves x).testBit i =
      (decide (i < 64) &&
        (if i / 32 % 2 = 0 then x.testBit (i + 32) else x.testBit (i - 32))) := by
  intro i
  have hx64 : ∀ j, 64 ≤ j → x.testBit j = false := fun j hj =>
    Nat.testBit_lt_two_pow
      (lt_of_lt_of_le hx (Nat.pow_le_pow_right (by norm_num) hj))
  rw [swap_halves]
  simp only [Nat.testBit_or, Nat.testBit_shiftRight, Nat.testBit_shiftLeft,
    Nat.testBit_mod_two_pow]
  by_cases hi : i < 64
  · by_cases h32 : i < 32
    · have hp : i / 32 % 2 = 0 := by omega
      have : ¬ (32 ≤ i) := by omega
      simp [hi, this, hp, Nat.add_comm 32 i]
    · have hp : i / 32 % 2 = 1 := by omega
      have hz : x.testBit (32 + i) = false := hx64 _ (by omega)
      simp [hi, h32, hp, hz, Nat.le_of_not_lt h32]
  · have hz : x.testBit (32 + i) = false := hx64 _ (by omega)
    simp [hi, hz]

theorem shiftRight_le_self (x n : Nat) : x >>> n ≤ x := by
  rw [Nat.shiftRight_eq_div_pow]
  exact Nat.div_le_self _ _

theorem rck_stage_lt (m1 m2 s x : Nat) (hx : x < 2 ^ 64) :
    rck_stage m1 m2 s x < 2 ^ 64 := by
  rw [rck_stage]
  refine Nat.or_lt_two_pow ?_ ?_
  · exact lt_of_le_of_lt (Nat.le_trans (shiftRight_le_self _ _) Nat.and_le_left) hx
  · exact Nat.mod_lt _ (by norm_num)

theorem swap_halves_lt (x : Nat) (hx : x < 2 ^ 64) : swap_halves x < 2 ^ 64 := by
  rw [swap_halves]
  refine Nat.or_lt_two_pow (Nat.mod_lt _ (by norm_num)) ?_
  exact lt_of_le_of_lt (shiftRight_le_self _ _) hx

/-- The full cascade reverses the order of the 32 two-bit groups of a
64-bit word (bit `i` comes from bit `2*(31 - i/2) + i%2`). -/
theorem rck_cascade_testBit (x : Nat) (hx : x < 2 ^ 64) :
    ∀ i, i < 64 → (rck_cascade x).testBit i = x.testBit (2 * (31 - i / 2) + i % 2) := by
  have b0 := swap_halves_lt x hx
  have b1 := rck_stage_lt 0xFFFF0000FFFF0000 0x0000FFFF0000FFFF 16 _ b0
  have b2 := rck_stage_lt 0xFF00FF00FF00FF00 0x00FF00FF00FF00FF 8 _ b1
  have b3 := rck_stage_lt 0xF0F0F0F0F0F0F0F0 0x0F0F0F0F0F0F0F0F 4 _ b2
  have hsw := swap_halves_testBit x hx
  have h16 := rck_stage_testBit 0xFFFF0000FFFF0000 0x0000FFFF0000FFFF 16 _
    (by norm_num) b0 mask16_hi mask16_lo
  have h8 := rck_stage_testBit 0xFF00FF00FF00FF00 0x00FF00FF00FF00FF 8 _
    (by norm_num) b1 mask8_hi mask8_lo
  have h4 := rck_stage_testBit 0xF0F0F0F0F0F0F0F0 0x0F0F0F0F0F0F0F0F 4 _
    (by norm_num) b2 mask4_hi mask4_lo
  have h2 := rck_stage_testBit 0xCCCCCCCCCCCCCCCC 0x3333333333333333 2 _
    (by norm_num) b3 mask2_hi mask2_lo
  intro i hi
  rw [rck_cascade]
  interval_cases i <;> simp [h2, h4, h8, h16, hsw]

/-! ### Spec-level window encodings -/

/-- Most-significant-base-first 2-bit packing of a list of codes
(the spec's KmerValue, given per-base codes). -/
def encodeCodes (cs : List Nat) : Nat := cs.foldl (fun a c => 4 * a + c) 0

/-- Modelled from the spec: the TwoBitAlphabet map, A/C/G/T
(case-insensitive) to 0..3. -/
def baseCode (b : Nat) : Nat :=
  if b = 65 ∨ b = 97 then 0
  else if b = 67 ∨ b = 99 then 1
  else if b = 71 ∨ b = 103 then 2
  else if b = 84 ∨ b = 116 then 3
  else 4

/-- Modelled from the spec: the forward 2-bit packed encoding of an
ASCII window, most-significant base first. -/
def kmerValueSpec (w : List Nat) : Nat := encodeCodes (w.map baseCode)

/-- Watson-Crick complement of an ASCII base (A↔T, C↔G, either case). -/
def complementByte (b : Nat) : Nat :=
  if b = 65 then 84 else if b = 84 then 65
  else if b = 67 then 71 else if b = 71 then 67
  else if b = 97 then 116 else if b = 116 then 97
  else if b = 99 then 103 else if b = 103 then 99
  else b

/-- Reverse complement of an ASCII window: reverse the base order and
complement each base. -/
def revCompWindow (w : List Nat) : List Nat := (w.reverse).map complementByte

/-- Reverse complement at the level of 2-bit codes. -/
def rcCodes (cs : List Nat) : List Nat := (cs.reverse).map (fun c => 3 - c)

theorem encodeCodes_append (cs : List Nat) (c : Nat) :
    encodeCodes (cs ++ [c]) = 4 * encodeCodes cs + c := by
  simp [encodeCodes, List.foldl_append]

theorem encodeCodes_lt (cs : List Nat) (h : ∀ c ∈ cs, c < 4) :
    encodeCodes cs < 4 ^ cs.length := by
  induction cs using List.reverseRecOn with
  | nil => simp [encodeCodes]
  | append_singleton cs c ih =>
      rw [encodeCodes_append]
      have hc : c < 4 := h c (by simp)
      have ha : encodeCodes cs < 4 ^ cs.length := ih fun x hx => h x (by simp [hx])
      have : 4 * encodeCodes cs + c < 4 * 4 ^ cs.length := by omega
      calc 4 * encodeCodes cs + c < 4 * 4 ^ cs.length := this
        _ = 4 ^ (cs ++ [c]).length := by
            simp [List.length_append, pow_succ, Nat.mul_comm]

theorem encodeCodes_testBit (cs : List Nat) (h : ∀ c ∈ cs, c < 4) :
    ∀ n, (encodeCodes cs).testBit n =
      if n < 2 * cs.length then (cs.getD (cs.length - 1 - n / 2) 0).testBit (n % 2)
      else false := by
  induction cs using List.reverseRecOn with
  | nil => intro n; simp [encodeCodes]
  | append_singleton cs c ih =>
      intro n
      have hc : c < 4 := h c (by simp)
      have ih' := ih fun x hx => h x (by simp [hx])
      rw [encodeCodes_append]
      have hrw : 4 * encodeCodes cs + c = 2 ^ 2 * encodeCodes cs + c := by norm_num
      rw [hrw, Nat.testBit_mul_pow_two_add _ (by omega : c < 2 ^ 2) n]
      by_cases hn : n < 2
      · rw [if_pos hn]
        have hlen : (cs ++ [c]).length = cs.length + 1 := by simp
        have hidx : (cs ++ [c]).length - 1 - n / 2 = cs.length := by
          rw [hlen]; omega
        rw [if_pos (by rw [hlen]; omega), hidx]
        have hget : (cs ++ [c]).getD cs.length 0 = c := by
          rw [List.getD_eq_getElem?_getD]
          simp
        rw [hget]
        congr 1
        omega
      · rw [if_neg hn, ih' (n - 2)]
        have hlen : (cs ++ [c]).length = cs.length + 1 := by simp
        by_cases hin : n - 2 < 2 * cs.length
        · rw [if_pos hin, if_pos (by rw [hlen]; omega)]
          have hidx : cs.length - 1 - (n - 2) / 2 = (cs ++ [c]).length - 1 - n / 2 := by
            rw [hlen]; omega
          have hidx2 : (cs ++ [c]).length - 1 - n / 2 < cs.length := by
            rw [hlen]; omega
          rw [hidx]
          have hget : (cs ++ [c]).getD ((cs ++ [c]).length - 1 - n / 2) 0 =
              cs.getD ((cs ++ [c]).length - 1 - n / 2) 0 := by
            rw [List.getD_eq_getElem?_getD, List.getD_eq_getElem?_getD,
              List.getElem?_append_left hidx2]
          rw [hget]
          congr 1
          omega
        · rw [if_neg hin, if_neg (by rw [hlen]; omega)]

theorem three_sub_testBit : ∀ c, c < 4 → ∀ r, r < 2 →
    (3 - c).testBit r = !(c.testBit r) := by decide

theorem rcCodes_getD (cs : List Nat) (j : Nat) (hj : j < cs.length) :
    (rcCodes cs).getD j 0 = 3 - cs.getD (cs.length - 1 - j) 0 := by
  rw [rcCodes, List.getD_eq_getElem?_getD, List.getElem?_map]
  have hrev : cs.reverse[j]? = some cs[cs.length - 1 - j] := by
    rw [List.getElem?_eq_getElem (by simpa using hj)]
    congr 1
    rw [List.getElem_reverse]
  rw [hrev]
  simp [List.getD_eq_getElem?_getD, List.getElem?_eq_getElem (by omega : cs.length - 1 - j < cs.length)]

example : encodeCodes [0, 1, 2, 3] = 0x1B := by decide
example : rcCodes [0, 1, 2, 3] = [0, 1, 2, 3] := by decide

theorem rck_cascade_lt (x : Nat) (hx : x < 2 ^ 64) : rck_cascade x < 2 ^ 64 := by
  rw [rck_cascade]
  exact rck_stage_lt _ _ _ _ (rck_stage_lt _ _ _ _ (rck_stage_lt _ _ _ _
    (rck_stage_lt _ _ _ _ (swap_halves_lt _ hx))))

/-- `reverse_complement_kmer` computes the spec's reverse complement on
packed windows: complementing and group-reversing the encoding of `cs`
gives the encoding of `rcCodes cs`. -/
theorem reverse_complement_kmer_eq (cs : List Nat) (k : Nat)
    (hlen : cs.length = k) (hk1 : 1 ≤ k) (hk32 : k ≤ 32) (h4 : ∀ c ∈ cs, c < 4) :
    reverse_complement_kmer (encodeCodes cs) k = encodeCodes (rcCodes cs) := by
  have henc : encodeCodes cs < 2 ^ 64 := by
    have h1 := encodeCodes_lt cs h4
    have h2 : (4 : Nat) ^ cs.length ≤ 4 ^ 32 := Nat.pow_le_pow_right (by norm_num) (by omega)
    calc encodeCodes cs < 4 ^ cs.length := h1
      _ ≤ 4 ^ 32 := h2
      _ = 2 ^ 64 := by norm_num
  have hy : encodeCodes cs ^^^ (2 ^ 64 - 1) < 2 ^ 64 :=
    Nat.xor_lt_two_pow henc (by norm_num)
  have hcas := rck_cascade_lt _ hy
  have hrc4 : ∀ c ∈ rcCodes cs, c < 4 := by
    intro c hc
    rw [rcCodes] at hc
    simp only [List.mem_map, List.mem_reverse] at hc
    obtain ⟨a, _, ha⟩ := hc
    omega
  have hrclen : (rcCodes cs).length = k := by simp [rcCodes, hlen]
  have hrcbound : encodeCodes (rcCodes cs) < 2 ^ (2 * k) := by
    have h1 := encodeCodes_lt _ hrc4
    rw [hrclen] at h1
    calc encodeCodes (rcCodes cs) < 4 ^ k := h1
      _ = 2 ^ (2 * k) := by rw [show (4 : Nat) = 2 ^ 2 from rfl, ← pow_mul]
  apply Nat.eq_of_testBit_eq
  intro i
  rw [reverse_complement_kmer, Nat.testBit_shiftRight]
  by_cases hi : i < 2 * k
  · have hidx : 64 - k * 2 + i < 64 := by omega
    rw [rck_cascade_testBit _ hy _ hidx]
    -- source bit position inside the complemented word
    have hpos : 2 * (31 - (64 - k * 2 + i) / 2) + (64 - k * 2 + i) % 2 =
        2 * (k - 1 - i / 2) + i % 2 := by omega
    rw [hpos]
    have hposlt : 2 * (k - 1 - i / 2) + i % 2 < 64 := by omega
    rw [Nat.testBit_xor, Nat.testBit_two_pow_sub_one, decide_eq_true hposlt]
    rw [encodeCodes_testBit cs h4, encodeCodes_testBit _ hrc4]
    have hfw : 2 * (k - 1 - i / 2) + i % 2 < 2 * cs.length := by omega
    rw [if_pos hfw]
    have hdiviz : (2 * (k - 1 - i / 2) + i % 2) / 2 = k - 1 - i / 2 := by omega
    have hmodz : (2 * (k - 1 - i / 2) + i % 2) % 2 = i % 2 := by omega
    rw [hdiviz, hmodz]
    have hia : cs.length - 1 - (k - 1 - i / 2) = i / 2 := by omega
    rw [hia]
    rw [if_pos (by omega : i < 2 * (rcCodes cs).length)]
    have hib : (rcCodes cs).length - 1 - i / 2 = k - 1 - i / 2 := by omega
    rw [hib, rcCodes_getD cs _ (by omega), hlen]
    have hia2 : k - 1 - (k - 1 - i / 2) = i / 2 := by omega
    rw [hia2]
    have hcslt : cs.getD (i / 2) 0 < 4 := by
      rcases Nat.lt_or_ge (i / 2) cs.length with hin | hout
      · have : cs.getD (i / 2) 0 ∈ cs := by
          rw [List.getD_eq_getElem?_getD, List.getElem?_eq_getElem hin]
          exact List.getElem_mem _
        exact h4 _ this
      · rw [List.getD_eq_getElem?_getD, List.getElem?_eq_none (by simpa using hout)]
        norm_num
    rw [three_sub_testBit _ hcslt _ (by omega)]
    cases (cs.getD (i / 2) 0).testBit (i % 2) <;> simp
  · -- beyond the window: both sides are zero
    have hz1 : (rck_cascade (encodeCodes cs ^^^ (2 ^ 64 - 1))).testBit (64 - k * 2 + i) = false := by
      apply Nat.testBit_lt_two_pow
      exact lt_of_lt_of_le hcas (Nat.pow_le_pow_right (by norm_num) (by omega))
    rw [hz1]
    symm
    apply Nat.testBit_lt_two_pow
    exact lt_of_lt_of_le hrcbound (Nat.pow_le_pow_right (by norm_num) (by omega))

/-! ### Loop characterizations -/

/-- The table values looked up for window positions `i, …, k-1`. -/
def tableVals (s : Nat → Nat) (i k : Nat) : List Nat :=
  (List.range' i (k - i)).map (fun j => NUCLEOTIDE_TO_TWOBIT.getD (s j) 0)

/-- The accumulator step of the per-base loop. -/
def scalarStep (a c : Nat) : Nat := ((a <<< 2) % 2 ^ 64) ||| c

theorem tableVals_cons (s : Nat → Nat) (i k : Nat) (h : i < k) :
    tableVals s i k = NUCLEOTIDE_TO_TWOBIT.getD (s i) 0 :: tableVals s (i + 1) k := by
  rw [tableVals, tableVals]
  have hk : k - i = (k - (i + 1)) + 1 := by omega
  rw [hk, List.range'_succ, List.map_cons]

theorem tableVals_nil (s : Nat → Nat) (i k : Nat) (h : k ≤ i) : tableVals s i k = [] := by
  rw [tableVals]
  have : k - i = 0 := by omega
  rw [this]
  rfl

theorem kmer_scalar_loop_eq (s : Nat → Nat) (k : Nat) :
    ∀ fuel i kmer an, k ≤ i + fuel →
      kmer_scalar_loop s k fuel i kmer an =
        (List.foldl scalarStep kmer (tableVals s i k),
         List.foldl (fun a c => a ||| c) an (tableVals s i k)) := by
  intro fuel
  induction fuel with
  | zero =>
      intro i kmer an hf
      rw [kmer_scalar_loop, tableVals_nil s i k (by omega)]
      rfl
  | succ fuel ih =>
      intro i kmer an hf
      rw [kmer_scalar_loop]
      by_cases hik : i < k
      · rw [if_pos hik, ih (i + 1) _ _ (by omega), tableVals_cons s i k hik]
        rfl
      · rw [if_neg hik, tableVals_nil s i k (by omega)]
        rfl

theorem table_le8 : ∀ b, NUCLEOTIDE_TO_TWOBIT.getD b 0 ≤ 8 := by
  intro b
  rcases Nat.lt_or_ge b 128 with h | h
  · revert h
    revert b
    decide
  · rw [List.getD_eq_getElem?_getD, List.getElem?_eq_none
      (by rw [show NUCLEOTIDE_TO_TWOBIT.length = 128 from rfl]; omega)]
    norm_num

theorem testBit_le8 (t j : Nat) (ht : t ≤ 8) (hj : 4 ≤ j) : t.testBit j = false := by
  apply Nat.testBit_lt_two_pow
  have : (2 : Nat) ^ 4 ≤ 2 ^ j := Nat.pow_le_pow_right (by norm_num) hj
  omega

/-- Four per-base accumulator steps equal one 4-base-chunk step. -/
theorem scalarStep_four (km t0 t1 t2 t3 : Nat)
    (h0 : t0 ≤ 8) (h1 : t1 ≤ 8) (h2 : t2 ≤ 8) (h3 : t3 ≤ 8) :
    scalarStep (scalarStep (scalarStep (scalarStep km t0) t1) t2) t3 =
      ((km <<< 8) % 2 ^ 64) ||| ((t0 <<< 6) ||| (t1 <<< 4) ||| (t2 <<< 2) ||| t3) := by
  apply Nat.eq_of_testBit_eq
  intro i
  simp only [scalarStep, Nat.testBit_or, Nat.testBit_mod_two_pow, Nat.testBit_shiftLeft,
    Nat.sub_sub]
  norm_num
  by_cases hi : i < 64
  · by_cases h8 : 8 ≤ i
    · simp [hi, h8, (by omega : 2 ≤ i), (by omega : 4 ≤ i), (by omega : 6 ≤ i),
        (by omega : 2 ≤ i - 2), (by omega : 2 ≤ i - 4), (by omega : 2 ≤ i - 6),
        (by omega : i - 2 < 64), (by omega : i - 4 < 64), (by omega : i - 6 < 64),
        (by omega : i - 2 - 2 = i - 4), (by omega : i - 2 - 2 - 2 = i - 6),
        (by omega : i - 2 - 2 - 2 - 2 = i - 8), (by omega : i - 6 - 2 = i - 8),
        (by omega : i - 4 - 2 = i - 6), Bool.or_assoc]
    · interval_cases i <;> simp
  · have z0 : t0.testBit (i - 6) = false := testBit_le8 _ _ h0 (by omega)
    have z1 : t1.testBit (i - 4) = false := testBit_le8 _ _ h1 (by omega)
    have z3 : t3.testBit i = false := testBit_le8 _ _ h3 (by omega)
    have z2 : t2.testBit (i - 2) = false := testBit_le8 _ _ h2 (by omega)
    simp [hi, z0, z1, z2, z3]

/-- Running the chunked loop and then the per-base loop equals running
the per-base loop over the whole range: the 4-base chunking is
observationally pure. -/
theorem vector_then_scalar_eq (s : Nat → Nat) (k : Nat) :
    ∀ fuel i kmer an, k ≤ i + fuel →
      (let v := kmer_vector_loop s k fuel i kmer an
       kmer_scalar_loop s k k v.1 v.2.1 v.2.2) =
      kmer_scalar_loop s k k i kmer an := by
  intro fuel
  induction fuel with
  | zero =>
      intro i kmer an hf
      rw [kmer_vector_loop]
  | succ fuel ih =>
      intro i kmer an hf
      rw [kmer_vector_loop]
      by_cases hik : i + 4 < k
      · rw [if_pos hik]
        have hrec := ih (i + 4) (((kmer <<< 8) % 2 ^ 64) |||
            ((NUCLEOTIDE_TO_TWOBIT.getD (s i) 0 <<< 6) |||
             (NUCLEOTIDE_TO_TWOBIT.getD (s (i + 1)) 0 <<< 4) |||
             (NUCLEOTIDE_TO_TWOBIT.getD (s (i + 2)) 0 <<< 2) |||
             NUCLEOTIDE_TO_TWOBIT.getD (s (i + 3)) 0))
          (an ||| (NUCLEOTIDE_TO_TWOBIT.getD (s i) 0 |||
            NUCLEOTIDE_TO_TWOBIT.getD (s (i + 1)) 0 |||
            NUCLEOTIDE_TO_TWOBIT.getD (s (i + 2)) 0 |||
            NUCLEOTIDE_TO_TWOBIT.getD (s (i + 3)) 0)) (by omega)
        rw [hrec]
        rw [kmer_scalar_loop_eq s k k (i + 4) _ _ (by omega),
            kmer_scalar_loop_eq s k k i _ _ (by omega)]
        rw [tableVals_cons s i k (by omega), tableVals_cons s (i + 1) k (by omega),
            tableVals_cons s (i + 2) k (by omega), tableVals_cons s (i + 3) k (by omega)]
        simp only [List.foldl_cons, show i + 3 + 1 = i + 4 from by omega, Prod.mk.injEq]
        constructor
        · rw [scalarStep_four _ _ _ _ _ (table_le8 _) (table_le8 _) (table_le8 _) (table_le8 _)]
        · simp [Nat.or_assoc]
      · rw [if_neg hik]

/-- C6: the 4-bases-per-iteration accumulation produces exactly the
same observable result (returned k-mer value or error) as a naive loop
processing one base per iteration. -/
theorem chunked_loop_refines_naive (s : Nat → Nat) (k : Nat) :
    sequence_to_canonical_kmer s k = sequence_to_canonical_kmer_naive s k := by
  rw [sequence_to_canonical_kmer, sequence_to_canonical_kmer_naive]
  have h := vector_then_scalar_eq s k k 0 0 0 (by omega)
  simp only at h ⊢
  rw [h]

/-! ### Valid windows: the canonical k-mer as a min of spec encodings -/

/-- A valid nucleotide byte: A/C/G/T in either case. -/
def isBase (b : Nat) : Prop :=
  b = 65 ∨ b = 67 ∨ b = 71 ∨ b = 84 ∨ b = 97 ∨ b = 99 ∨ b = 103 ∨ b = 116

instance (b : Nat) : Decidable (isBase b) := by
  rw [isBase]
  infer_instance

theorem isBase_lt128 (b : Nat) (h : isBase b) : b < 128 := by
  rcases h with h | h | h | h | h | h | h | h <;> omega

theorem table_eq_baseCode : ∀ b, b < 128 → isBase b →
    NUCLEOTIDE_TO_TWOBIT.getD b 0 = baseCode b ∧ baseCode b < 4 := by decide

theorem baseCode_complement : ∀ b, b < 128 → isBase b →
    baseCode (complementByte b) = 3 - baseCode b := by decide

theorem tableVals_of_list (w : List Nat) :
    tableVals (fun i => w.getD i 0) 0 w.length =
      w.map (fun b => NUCLEOTIDE_TO_TWOBIT.getD b 0) := by
  apply List.ext_getElem
  · simp [tableVals]
  · intro j hj1 hj2
    simp only [tableVals, Nat.sub_zero] at hj1 ⊢
    rw [List.getElem_map, List.getElem_map, List.getElem_range']
    congr 1
    have hjw : j < w.length := by simpa using hj2
    simp [List.getD_eq_getElem?_getD, List.getElem?_eq_getElem hjw]

theorem foldl_scalarStep_eq (cs : List Nat) : ∀ a, (∀ c ∈ cs, c < 4) →
    cs.length ≤ 32 → a < 4 ^ (32 - cs.length) →
    List.foldl scalarStep a cs = List.foldl (fun x c => 4 * x + c) a cs := by
  induction cs with
  | nil => intro a _ _ _; rfl
  | cons c cs ih =>
      intro a h4 hlen ha
      have hc : c < 4 := h4 c (by simp)
      have hstep : scalarStep a c = 4 * a + c := by
        rw [scalarStep, Nat.shiftLeft_eq]
        have hord : (4 : Nat) ^ (32 - (c :: cs).length) * 4 ≤ 4 ^ 32 := by
          rw [← pow_succ]
          exact Nat.pow_le_pow_right (by norm_num) (by rw [List.length_cons]; omega)
        have h4a : a * 2 ^ 2 < 2 ^ 64 := by
          calc a * 2 ^ 2 = a * 4 := by norm_num
            _ < 4 ^ (32 - (c :: cs).length) * 4 :=
                (Nat.mul_lt_mul_right (by norm_num)).mpr ha
            _ ≤ 4 ^ 32 := hord
            _ = 2 ^ 64 := by norm_num
        rw [Nat.mod_eq_of_lt h4a, Nat.mul_comm a (2 ^ 2),
          ← Nat.mul_add_lt_is_or (by omega : c < 2 ^ 2) a]
      simp only [List.foldl_cons, hstep]
      apply ih (4 * a + c) (fun x hx => h4 x (by simp [hx])) (by simp at hlen ⊢; omega)
      have hlen' : 32 - cs.length = (32 - (c :: cs).length) + 1 := by
        simp at hlen ⊢
        omega
      rw [hlen', pow_succ]
      omega

theorem fold_lor_lt (cs : List Nat) (n : Nat) : ∀ acc, (∀ c ∈ cs, c < 2 ^ n) →
    acc < 2 ^ n → List.foldl (fun a c => a ||| c) acc cs < 2 ^ n := by
  induction cs with
  | nil => intro acc _ h; exact h
  | cons c cs ih =>
      intro acc h hacc
      simp only [List.foldl_cons]
      exact ih _ (fun x hx => h x (by simp [hx]))
        (Nat.or_lt_two_pow hacc (h c (by simp)))

/-- For a window of valid bases, `sequence_to_canonical_kmer` returns
the int64 image of the minimum of the spec's forward encoding and the
spec's encoding of the reverse-complement window. -/
theorem canonical_valid (w : List Nat) (hb : ∀ b ∈ w, isBase b)
    (hk1 : 1 ≤ w.length) (hk32 : w.length ≤ 32) :
    sequence_to_canonical_kmer (fun i => w.getD i 0) w.length =
      toInt64 (min (kmerValueSpec w) (kmerValueSpec (revCompWindow w))) := by
  have hcodes : ∀ c ∈ w.map baseCode, c < 4 := by
    intro c hc
    simp only [List.mem_map] at hc
    obtain ⟨b, hbw, rfl⟩ := hc
    exact (table_eq_baseCode b (isBase_lt128 b (hb b hbw)) (hb b hbw)).2
  have htable : w.map (fun b => NUCLEOTIDE_TO_TWOBIT.getD b 0) = w.map baseCode := by
    apply List.map_congr_left
    intro b hbw
    exact (table_eq_baseCode b (isBase_lt128 b (hb b hbw)) (hb b hbw)).1
  rw [sequence_to_canonical_kmer]
  have hcomb := vector_then_scalar_eq (fun i => w.getD i 0) w.length w.length 0 0 0 (by omega)
  simp only at hcomb ⊢
  rw [hcomb, kmer_scalar_loop_eq _ _ _ 0 0 0 (by omega), tableVals_of_list, htable]
  have hkmer : List.foldl scalarStep 0 (w.map baseCode) = encodeCodes (w.map baseCode) := by
    have h := foldl_scalarStep_eq (w.map baseCode) 0 hcodes (by simpa using hk32)
      (pow_pos (by norm_num) _)
    simpa [encodeCodes] using h
  have hnucs : List.foldl (fun a c => a ||| c) 0 (w.map baseCode) < 4 := by
    have h := fold_lor_lt (w.map baseCode) 2 0 (by simpa using hcodes) (by norm_num)
    simpa using h
  simp only [hkmer]
  rw [if_neg (by omega)]
  simp only [canonical_tail]
  have hrck := reverse_complement_kmer_eq (w.map baseCode) w.length
    (by simp) hk1 hk32 hcodes
  rw [hrck]
  have hrcw : encodeCodes (rcCodes (w.map baseCode)) = kmerValueSpec (revCompWindow w) := by
    rw [kmerValueSpec, rcCodes, revCompWindow, ← List.map_reverse, List.map_map, List.map_map]
    congr 1
    apply List.map_congr_left
    intro b hbw
    have hbb : isBase b := hb b (by simpa using hbw)
    simp [Function.comp, baseCode_complement b (isBase_lt128 b hbb) hbb]
  rw [hrcw, show kmerValueSpec w = encodeCodes (w.map baseCode) from rfl]
  rcases Nat.lt_or_ge (encodeCodes (w.map baseCode)) (kmerValueSpec (revCompWindow w)) with hlt | hge
  · rw [if_pos hlt, min_eq_left (le_of_lt hlt)]
  · rw [if_neg (by omega), min_eq_right hge]

theorem isBase_complement : ∀ b, b < 128 → isBase b → isBase (complementByte b) := by decide

theorem complement_involutive : ∀ b, b < 128 → isBase b →
    complementByte (complementByte b) = b := by decide

theorem revCompWindow_involutive (w : List Nat) (hb : ∀ b ∈ w, isBase b) :
    revCompWindow (revCompWindow w) = w := by
  simp only [revCompWindow, List.map_reverse, List.reverse_reverse, List.map_map]
  have h : w.map (complementByte ∘ complementByte) = w.map (fun b => b) := by
    apply List.map_congr_left
    intro b hbw
    have hbb := hb b hbw
    simp [Function.comp, complement_involutive b (isBase_lt128 b hbb) hbb]
  rw [h, List.map_id_fun']
  rfl

/-- C2: for every window over A/C/G/T of length 1..32, the canonical
k-mer of the window equals the canonical k-mer of its reverse
complement (reverse the base order and swap A↔T, C↔G). -/
theorem canonical_kmer_revcomp_symmetric (w : List Nat)
    (hb : ∀ b ∈ w, b = 65 ∨ b = 67 ∨ b = 71 ∨ b = 84)
    (hk1 : 1 ≤ w.length) (hk32 : w.length ≤ 32) :
    sequence_to_canonical_kmer (fun i => w.getD i 0) w.length =
      sequence_to_canonical_kmer (fun i => (revCompWindow w).getD i 0)
        (revCompWindow w).length := by
  have hbase : ∀ b ∈ w, isBase b := by
    intro b h
    rcases hb b h with h | h | h | h <;> simp [isBase, h]
  have hbase' : ∀ b ∈ revCompWindow w, isBase b := by
    intro b h
    rw [revCompWindow] at h
    simp only [List.mem_map, List.mem_reverse] at h
    obtain ⟨a, ha, rfl⟩ := h
    exact isBase_complement a (isBase_lt128 a (hbase a ha)) (hbase a ha)
  have hlen : (revCompWindow w).length = w.length := by simp [revCompWindow]
  rw [canonical_valid w hbase hk1 hk32,
      canonical_valid (revCompWindow w) hbase' (by omega) (by omega),
      revCompWindow_involutive w hbase, Nat.min_comm]

/-- Witness for C2 at the window "ACGG" (reverse complement "CCGT"). -/
theorem canonical_kmer_revcomp_symmetric_witness :
    sequence_to_canonical_kmer (fun i => [65, 67, 71, 71].getD i 0) 4 =
      sequence_to_canonical_kmer (fun i => [67, 67, 71, 84].getD i 0) 4 := by
  have h := canonical_kmer_revcomp_symmetric [65, 67, 71, 71]
    (by decide) (by decide) (by decide)
  exact h

/-- C3 counterexample: at the all-`T`-then-`A` window of length 32 the
function does not return the numerical minimum of the forward and
reverse-complement encodings — the `int64_t` return wraps it to a
negative value. -/
theorem canonical_kmer_not_min_at_k32 :
    sequence_to_canonical_kmer
        (fun i => (List.replicate 31 84 ++ [65]).getD i 0) 32 ≠
      ((min (kmerValueSpec (List.replicate 31 84 ++ [65]))
        (kmerValueSpec (revCompWindow (List.replicate 31 84 ++ [65])))) : Int) := by
  decide

/-- C3 (amended): for every window of valid bases of length 1..32 the
function returns the two's-complement int64 image of the minimum of
the forward 2-bit packed encoding (most-significant base first) and
the reverse-complement encoding; whenever that minimum is below 2^63
(in particular for every k ≤ 31) the returned value is exactly the
minimum. -/
theorem canonical_kmer_eq_min_spec (w : List Nat) (hb : ∀ b ∈ w, isBase b)
    (hk1 : 1 ≤ w.length) (hk32 : w.length ≤ 32) :
    sequence_to_canonical_kmer (fun i => w.getD i 0) w.length =
      toInt64 (min (kmerValueSpec w) (kmerValueSpec (revCompWindow w))) ∧
    (min (kmerValueSpec w) (kmerValueSpec (revCompWindow w)) < 2 ^ 63 →
      sequence_to_canonical_kmer (fun i => w.getD i 0) w.length =
        (min (kmerValueSpec w) (kmerValueSpec (revCompWindow w)) : Int)) := by
  refine ⟨canonical_valid w hb hk1 hk32, fun hmin => ?_⟩
  rw [canonical_valid w hb hk1 hk32, toInt64, if_pos hmin]
  push_cast
  rfl

/-- Witness for C3's amended theorem: "ACGT" at k = 4 gives 0x1B. -/
theorem canonical_kmer_eq_min_spec_witness :
    sequence_to_canonical_kmer (fun i => [65, 67, 71, 84].getD i 0) 4 = 0x1B := by
  have h := (canonical_kmer_eq_min_spec [65, 67, 71, 84]
    (by decide) (by decide) (by decide)).2 (by decide)
  have h4 : sequence_to_canonical_kmer (fun i => [65, 67, 71, 84].getD i 0) 4 =
      (min (kmerValueSpec [65, 67, 71, 84])
        (kmerValueSpec (revCompWindow [65, 67, 71, 84])) : Int) := h
  rw [h4]
  decide

/-! ### Error classification (C4, C5) -/

/-- An explicit N, upper or lower case. -/
def isN (b : Nat) : Prop := b = 78 ∨ b = 110

instance (b : Nat) : Decidable (isN b) := by
  rw [isN]
  infer_instance

/-- The accumulated `all_nucs` value over a window. -/
def nucsOf (w : List Nat) : Nat :=
  List.foldl (fun a c => a ||| c) 0 (w.map (fun b => NUCLEOTIDE_TO_TWOBIT.getD b 0))

/-- The accumulated `kmer` value over a window. -/
def kmerOf (w : List Nat) : Nat :=
  List.foldl scalarStep 0 (w.map (fun b => NUCLEOTIDE_TO_TWOBIT.getD b 0))

theorem canonical_unfold (w : List Nat) :
    sequence_to_canonical_kmer (fun i => w.getD i 0) w.length =
      (if 3 < nucsOf w then
        (if nucsOf w &&& 4 ≠ 0 then TWOBIT_UNKNOWN_CHAR
         else if nucsOf w &&& 8 ≠ 0 then TWOBIT_N_CHAR
         else canonical_tail (kmerOf w) w.length)
       else canonical_tail (kmerOf w) w.length) := by
  rw [sequence_to_canonical_kmer]
  have hcomb := vector_then_scalar_eq (fun i => w.getD i 0) w.length w.length 0 0 0 (by omega)
  simp only at hcomb ⊢
  rw [hcomb, kmer_scalar_loop_eq _ _ _ 0 0 0 (by omega), tableVals_of_list]
  rfl

theorem fold_lor_testBit (cs : List Nat) : ∀ acc j,
    (List.foldl (fun a c => a ||| c) acc cs).testBit j =
      (acc.testBit j || cs.any (fun c => c.testBit j)) := by
  induction cs with
  | nil => simp
  | cons c cs ih =>
      intro acc j
      simp [List.foldl_cons, ih, Bool.or_assoc]

theorem nucsOf_lt16 (w : List Nat) : nucsOf w < 16 := by
  have h := fold_lor_lt (w.map (fun b => NUCLEOTIDE_TO_TWOBIT.getD b 0)) 4 0 ?_ (by norm_num)
  · simpa [nucsOf] using h
  · intro c hc
    simp only [List.mem_map] at hc
    obtain ⟨b, _, rfl⟩ := hc
    have := table_le8 b
    omega

theorem nucsOf_testBit (w : List Nat) (j : Nat) :
    (nucsOf w).testBit j = w.any (fun b => (NUCLEOTIDE_TO_TWOBIT.getD b 0).testBit j) := by
  rw [nucsOf, fold_lor_testBit]
  simp only [List.any_map, Nat.zero_testBit, Bool.false_or]
  rfl

theorem lt16_gt3_iff : ∀ a, a < 16 →
    (3 < a ↔ (a.testBit 2 = true ∨ a.testBit 3 = true)) := by decide

theorem lt16_and4_iff : ∀ a, a < 16 → (a &&& 4 ≠ 0 ↔ a.testBit 2 = true) := by decide

theorem lt16_and8_iff : ∀ a, a < 16 → (a &&& 8 ≠ 0 ↔ a.testBit 3 = true) := by decide

theorem tbl_testBit2_iff : ∀ b, b < 128 →
    ((NUCLEOTIDE_TO_TWOBIT.getD b 0).testBit 2 = true ↔ (¬ isBase b ∧ ¬ isN b)) := by decide

theorem tbl_testBit3_iff : ∀ b, b < 128 →
    ((NUCLEOTIDE_TO_TWOBIT.getD b 0).testBit 3 = true ↔ isN b) := by decide

/-- Any window containing a byte that is neither a valid base nor an N
gives the UnknownChar error. -/
theorem canonical_unknown_of_mem (w : List Nat) (hascii : ∀ b ∈ w, b < 128)
    (hex : ∃ b ∈ w, ¬ isBase b ∧ ¬ isN b) :
    sequence_to_canonical_kmer (fun i => w.getD i 0) w.length = TWOBIT_UNKNOWN_CHAR := by
  obtain ⟨b, hbw, hbc⟩ := hex
  have hbit2 : (nucsOf w).testBit 2 = true := by
    rw [nucsOf_testBit]
    rw [List.any_eq_true]
    exact ⟨b, hbw, (tbl_testBit2_iff b (hascii b hbw)).mpr hbc⟩
  rw [canonical_unfold w]
  rw [if_pos ((lt16_gt3_iff _ (nucsOf_lt16 w)).mpr (Or.inl hbit2)),
    if_pos ((lt16_and4_iff _ (nucsOf_lt16 w)).mpr hbit2)]

/-- Any window of valid bases and Ns with at least one N gives the
AmbiguousN error. -/
theorem canonical_ncode_of_mem (w : List Nat)
    (hb : ∀ b ∈ w, isBase b ∨ isN b) (hn : ∃ b ∈ w, isN b) :
    sequence_to_canonical_kmer (fun i => w.getD i 0) w.length = TWOBIT_N_CHAR := by
  have hascii : ∀ b ∈ w, b < 128 := by
    intro b hbw
    rcases hb b hbw with h | h
    · exact isBase_lt128 b h
    · rcases h with h | h <;> omega
  obtain ⟨b, hbw, hbn⟩ := hn
  have hbit3 : (nucsOf w).testBit 3 = true := by
    rw [nucsOf_testBit, List.any_eq_true]
    exact ⟨b, hbw, (tbl_testBit3_iff b (hascii b hbw)).mpr hbn⟩
  have hbit2 : (nucsOf w).testBit 2 = false := by
    rw [nucsOf_testBit]
    rw [List.any_eq_false]
    intro x hxw
    rw [Bool.not_eq_true]
    rw [← Bool.not_eq_true]
    intro hc
    have h2 := (tbl_testBit2_iff x (hascii x hxw)).mp hc
    rcases hb x hxw with h | h
    · exact h2.1 h
    · exact h2.2 h
  rw [canonical_unfold w]
  rw [if_pos ((lt16_gt3_iff _ (nucsOf_lt16 w)).mpr (Or.inr hbit3))]
  rw [if_neg (by
    rw [lt16_and4_iff _ (nucsOf_lt16 w), hbit2]
    exact Bool.false_ne_true)]
  rw [if_pos ((lt16_and8_iff _ (nucsOf_lt16 w)).mpr hbit3)]

/-- C4 counterexample: the window "ACGR" contains the IUPAC ambiguity
code R and otherwise only A/C/G/T, yet the encoder reports UnknownChar
(-1), not AmbiguousN (-2). -/
theorem canonical_kmer_iupac_not_ambiguous :
    sequence_to_canonical_kmer (fun i => [65, 67, 71, 82].getD i 0) 4 =
      TWOBIT_UNKNOWN_CHAR ∧ TWOBIT_UNKNOWN_CHAR ≠ TWOBIT_N_CHAR := by decide

/-- C4 (amended): for every window of length 1..32 whose bytes are
A/C/G/T (either case) except at least one explicit 'N'/'n' — and no
other byte — the encoder returns the AmbiguousN error.  (IUPAC
ambiguity codes other than N are classified UnknownChar by the lookup
table, not AmbiguousN.) -/
theorem canonical_kmer_ambiguousN (w : List Nat)
    (hb : ∀ b ∈ w, isBase b ∨ isN b) (hn : ∃ b ∈ w, isN b)
    (hk1 : 1 ≤ w.length) (hk32 : w.length ≤ 32) :
    sequence_to_canonical_kmer (fun i => w.getD i 0) w.length = TWOBIT_N_CHAR :=
  canonical_ncode_of_mem w hb hn

/-- Witness for C4's amended theorem at the window "ACGN". -/
theorem canonical_kmer_ambiguousN_witness :
    sequence_to_canonical_kmer (fun i => [65, 67, 71, 78].getD i 0) 4 = TWOBIT_N_CHAR := by
  have h := canonical_kmer_ambiguousN [65, 67, 71, 78]
    (by decide) (by decide) (by decide) (by decide)
  exact h

/-! ### C5: errors occur exactly on invalid windows -/

theorem encodeCodes_cons (c : Nat) (cs : List Nat) :
    encodeCodes (c :: cs) = c * 4 ^ cs.length + encodeCodes cs := by
  induction cs using List.reverseRecOn with
  | nil => simp [encodeCodes]
  | append_singleton cs c' ih =>
      rw [← List.cons_append, encodeCodes_append, ih, encodeCodes_append]
      simp [List.length_append, pow_succ]
      ring

theorem encodeCodes_mod4 (cs : List Nat) (h : cs ≠ []) :
    encodeCodes cs % 4 = cs.getD (cs.length - 1) 0 % 4 := by
  induction cs using List.reverseRecOn with
  | nil => exact absurd rfl h
  | append_singleton cs c _ =>
      rw [encodeCodes_append]
      have hget : (cs ++ [c]).getD ((cs ++ [c]).length - 1) 0 = c := by
        rw [List.getD_eq_getElem?_getD]
        simp
      rw [hget]
      omega

/-- A packed value within two of the 64-bit maximum forces a length-32
window starting with code 3. -/
theorem encode_big_first (cs : List Nat) (h4 : ∀ c ∈ cs, c < 4)
    (hlen : cs.length ≤ 32) (h : 2 ^ 64 - 2 ≤ encodeCodes cs) :
    cs.getD 0 0 = 3 ∧ cs.length = 32 := by
  have hlt := encodeCodes_lt cs h4
  have hl32 : cs.length = 32 := by
    by_contra hne
    have h31 : cs.length ≤ 31 := by omega
    have : (4 : Nat) ^ cs.length ≤ 4 ^ 31 := Nat.pow_le_pow_right (by norm_num) h31
    have h431 : (4 : Nat) ^ 31 = 4611686018427387904 := by norm_num
    have h264 : (2 : Nat) ^ 64 = 18446744073709551616 := by norm_num
    omega
  refine ⟨?_, hl32⟩
  rcases cs with _ | ⟨c, cs'⟩
  · simp at hl32
  · have hlen' : cs'.length = 31 := by simpa using hl32
    rw [encodeCodes_cons, hlen'] at h hlt
    have hc4 : c < 4 := h4 c (by simp)
    have hcs' : encodeCodes cs' < 4 ^ 31 := by
      have := encodeCodes_lt cs' (fun x hx => h4 x (by simp [hx]))
      rwa [hlen'] at this
    have h431 : (4 : Nat) ^ 31 = 4611686018427387904 := by norm_num
    have h264 : (2 : Nat) ^ 64 = 18446744073709551616 := by norm_num
    have hc3 : c = 3 := by
      by_contra hne
      have : c ≤ 2 := by omega
      have : c * 4 ^ 31 + encodeCodes cs' ≤ 2 * 4 ^ 31 + (4 ^ 31 - 1) := by
        have := Nat.mul_le_mul_right (4 ^ 31) this
        omega
      omega
    simp [hc3]

theorem toInt64_neg_iff (v : Nat) (hv : v < 2 ^ 64) :
    (toInt64 v = -1 ↔ v = 2 ^ 64 - 1) ∧ (toInt64 v = -2 ↔ v = 2 ^ 64 - 2) := by
  have h63 : (2 : Nat) ^ 63 = 9223372036854775808 := by norm_num
  have h64 : (2 : Nat) ^ 64 = 18446744073709551616 := by norm_num
  have h64i : (2 : Int) ^ 64 = 18446744073709551616 := by norm_num
  rw [h64] at hv
  rw [toInt64]
  split_ifs with h
  · rw [h63] at h
    rw [h64]
    constructor <;> constructor <;> intro h' <;> first
      | exact h'.elim
      | omega
  · rw [h63] at h
    rw [h64i, h64]
    constructor <;> constructor <;> intro h' <;> omega

/-- On valid windows the spec encodings of the window and its reverse
complement are related by `rcCodes`. -/
theorem map_baseCode_revComp (w : List Nat) (hb : ∀ b ∈ w, isBase b) :
    (revCompWindow w).map baseCode = rcCodes (w.map baseCode) := by
  rw [rcCodes, revCompWindow, ← List.map_reverse, List.map_map, List.map_map]
  apply List.map_congr_left
  intro b hbw
  have hbb : isBase b := hb b (by simpa using hbw)
  simp [Function.comp, baseCode_complement b (isBase_lt128 b hbb) hbb]

/-- A valid window never produces the error values -1 or -2. -/
theorem canonical_valid_not_error (w : List Nat) (hb : ∀ b ∈ w, isBase b)
    (hk1 : 1 ≤ w.length) (hk32 : w.length ≤ 32) :
    sequence_to_canonical_kmer (fun i => w.getD i 0) w.length ≠ TWOBIT_UNKNOWN_CHAR ∧
    sequence_to_canonical_kmer (fun i => w.getD i 0) w.length ≠ TWOBIT_N_CHAR := by
  rw [canonical_valid w hb hk1 hk32]
  set cs := w.map baseCode with hcs
  have hcodes : ∀ c ∈ cs, c < 4 := by
    intro c hc
    simp only [hcs, List.mem_map] at hc
    obtain ⟨b, hbw, rfl⟩ := hc
    exact (table_eq_baseCode b (isBase_lt128 b (hb b hbw)) (hb b hbw)).2
  have hrcodes : ∀ c ∈ rcCodes cs, c < 4 := by
    intro c hc
    rw [rcCodes] at hc
    simp only [List.mem_map, List.mem_reverse] at hc
    obtain ⟨a, ha, rfl⟩ := hc
    have := hcodes a ha
    omega
  have hlen : cs.length = w.length := by simp [hcs]
  have hrclen : (rcCodes cs).length = w.length := by simp [rcCodes, hlen]
  have hA : kmerValueSpec w = encodeCodes cs := rfl
  have hB : kmerValueSpec (revCompWindow w) = encodeCodes (rcCodes cs) := by
    rw [kmerValueSpec, map_baseCode_revComp w hb]
  set A := encodeCodes cs with hAdef
  set B := encodeCodes (rcCodes cs) with hBdef
  have hAlt : A < 2 ^ 64 := by
    have h1 := encodeCodes_lt cs hcodes
    have h2 : (4 : Nat) ^ cs.length ≤ 4 ^ 32 := Nat.pow_le_pow_right (by norm_num) (by omega)
    have : (4 : Nat) ^ 32 = 2 ^ 64 := by norm_num
    omega
  have hBlt : B < 2 ^ 64 := by
    have h1 := encodeCodes_lt (rcCodes cs) hrcodes
    have h2 : (4 : Nat) ^ (rcCodes cs).length ≤ 4 ^ 32 :=
      Nat.pow_le_pow_right (by norm_num) (by omega)
    have : (4 : Nat) ^ 32 = 2 ^ 64 := by norm_num
    omega
  rw [hA, hB]
  have hminlt : min A B < 2 ^ 64 := by omega
  have hkey : ¬ (min A B = 2 ^ 64 - 1 ∨ min A B = 2 ^ 64 - 2) := by
    intro hbad
    have hAge : 2 ^ 64 - 2 ≤ A := by omega
    have hBge : 2 ^ 64 - 2 ≤ B := by omega
    -- A nearly full forces first code 3, so the rc encoding ends in 0
    have hAfirst := encode_big_first cs hcodes (by omega) hAge
    have hBfirst := encode_big_first (rcCodes cs) hrcodes (by omega) hBge
    -- B's first code is 3 - (last code of cs), so cs ends in 0 and A % 4 = 0
    have hBfirstval : (rcCodes cs).getD 0 0 = 3 - cs.getD (cs.length - 1) 0 := by
      rw [rcCodes_getD cs 0 (by omega)]
      congr 1
    have hcslast : cs.getD (cs.length - 1) 0 = 0 := by
      have h3 := hBfirst.1
      rw [hBfirstval] at h3
      have : cs.getD (cs.length - 1) 0 < 4 := by
        rcases Nat.lt_or_ge (cs.length - 1) cs.length with hin | hout
        · have : cs.getD (cs.length - 1) 0 ∈ cs := by
            rw [List.getD_eq_getElem?_getD, List.getElem?_eq_getElem hin]
            exact List.getElem_mem _
          exact hcodes _ this
        · omega
      omega
    have hAmod : A % 4 = 0 := by
      rw [hAdef, encodeCodes_mod4 cs (by intro hnil; rw [hnil] at hlen; simp at hlen; omega),
        hcslast]
    have h264 : (2 : Nat) ^ 64 = 18446744073709551616 := by norm_num
    rcases Nat.le_total A B with hab | hba
    · rw [min_eq_left hab] at hbad
      omega
    · -- symmetric: B is the minimum, so B % 4 must be 0 as well
      have hrclast : (rcCodes cs).getD ((rcCodes cs).length - 1) 0 = 0 := by
        rw [hrclen, rcCodes_getD cs (w.length - 1) (by omega)]
        have : cs.length - 1 - (w.length - 1) = 0 := by omega
        rw [this, hAfirst.1]
      have hBmod : B % 4 = 0 := by
        rw [hBdef, encodeCodes_mod4 (rcCodes cs)
          (by intro hnil; rw [hnil] at hrclen; simp at hrclen; omega), hrclast]
      rw [min_eq_right hba] at hbad
      omega
  have hinv := toInt64_neg_iff (min A B) hminlt
  constructor
  · intro hc
    exact hkey (Or.inl ((hinv.1).mp hc))
  · intro hc
    exact hkey (Or.inr ((hinv.2).mp hc))

/-- C5: for every ASCII window of length 1..32, the encoder returns an
error (UnknownChar or AmbiguousN) if and only if some byte of the
window is not A/C/G/T in either case; and whenever the window contains
both an unknown (non-nucleotide, non-N) byte and an N, UnknownChar is
reported — UnknownChar takes precedence over AmbiguousN. -/
theorem canonical_kmer_error_iff (w : List Nat) (hascii : ∀ b ∈ w, b < 128)
    (hk1 : 1 ≤ w.length) (hk32 : w.length ≤ 32) :
    ((sequence_to_canonical_kmer (fun i => w.getD i 0) w.length = TWOBIT_UNKNOWN_CHAR ∨
      sequence_to_canonical_kmer (fun i => w.getD i 0) w.length = TWOBIT_N_CHAR) ↔
      ∃ b ∈ w, ¬ isBase b) ∧
    ((∃ b ∈ w, ¬ isBase b ∧ ¬ isN b) → (∃ b ∈ w, isN b) →
      sequence_to_canonical_kmer (fun i => w.getD i 0) w.length = TWOBIT_UNKNOWN_CHAR) := by
  constructor
  · constructor
    · intro hres
      by_contra hninv
      push_neg at hninv
      have hne := canonical_valid_not_error w hninv hk1 hk32
      rcases hres with h | h
      · exact hne.1 h
      · exact hne.2 h
    · rintro ⟨b, hbw, hbinv⟩
      by_cases hun : ∃ x ∈ w, ¬ isBase x ∧ ¬ isN x
      · exact Or.inl (canonical_unknown_of_mem w hascii hun)
      · push_neg at hun
        have hb' : ∀ x ∈ w, isBase x ∨ isN x := by
          intro x hxw
          by_cases hx : isBase x
          · exact Or.inl hx
          · exact Or.inr (hun x hxw hx)
        exact Or.inr (canonical_ncode_of_mem w hb' ⟨b, hbw, hun b hbw hbinv⟩)
  · intro hun _
    exact canonical_unknown_of_mem w hascii hun

/-- Witness for C5 at the window "ACGN". -/
theorem canonical_kmer_error_iff_witness :
    sequence_to_canonical_kmer (fun i => [65, 67, 71, 78].getD i 0) 4 = TWOBIT_UNKNOWN_CHAR ∨
    sequence_to_canonical_kmer (fun i => [65, 67, 71, 78].getD i 0) 4 = TWOBIT_N_CHAR :=
  (canonical_kmer_error_iff [65, 67, 71, 78] (by decide) (by decide) (by decide)).1.mpr
    ⟨78, by decide, by decide⟩

/-! ### C9: case-insensitivity -/

/-- `b` is `a` with at most a change of letter case. -/
def caseVariant (a b : Nat) : Prop :=
  b = a ∨ (65 ≤ a ∧ a ≤ 90 ∧ b = a + 32) ∨ (97 ≤ a ∧ a ≤ 122 ∧ b = a - 32)

instance (a b : Nat) : Decidable (caseVariant a b) := by
  rw [caseVariant]
  infer_instance

theorem tbl_upper_lower : ∀ a, a < 91 → 65 ≤ a →
    NUCLEOTIDE_TO_TWOBIT.getD (a + 32) 0 = NUCLEOTIDE_TO_TWOBIT.getD a 0 := by decide

theorem tbl_caseVariant (a b : Nat) (hcv : caseVariant a b) :
    NUCLEOTIDE_TO_TWOBIT.getD b 0 = NUCLEOTIDE_TO_TWOBIT.getD a 0 := by
  rcases hcv with rfl | ⟨h1, h2, rfl⟩ | ⟨h1, h2, rfl⟩
  · rfl
  · exact tbl_upper_lower a (by omega) h1
  · have h := tbl_upper_lower (a - 32) (by omega) (by omega)
    rw [show a - 32 + 32 = a from by omega] at h
    exact h.symm

/-- Pointwise case changes leave the per-byte table lookups unchanged. -/
theorem forall₂_caseVariant_map (w w' : List Nat)
    (hcv : List.Forall₂ caseVariant w w') :
    w'.map (fun b => NUCLEOTIDE_TO_TWOBIT.getD b 0) =
      w.map (fun b => NUCLEOTIDE_TO_TWOBIT.getD b 0) := by
  induction hcv with
  | nil => rfl
  | cons hab htl ih => simp only [List.map_cons, ih, tbl_caseVariant _ _ hab]

/-- C9: changing the case of any bytes of a window does not change the
canonical k-mer result: A/C/G/T map to the same 2-bit code in either
case, and the classification of every other byte is likewise
case-insensitive. -/
theorem canonical_kmer_case_insensitive (w w' : List Nat)
    (hcv : List.Forall₂ caseVariant w w')
    (hk1 : 1 ≤ w.length) (hk32 : w.length ≤ 32) :
    sequence_to_canonical_kmer (fun i => w.getD i 0) w.length =
      sequence_to_canonical_kmer (fun i => w'.getD i 0) w'.length := by
  have hlen : w'.length = w.length := hcv.length_eq.symm
  have hmap := forall₂_caseVariant_map w w' hcv
  rw [canonical_unfold w, canonical_unfold w']
  have hn : nucsOf w' = nucsOf w := by rw [nucsOf, nucsOf, hmap]
  have hk : kmerOf w' = kmerOf w := by rw [kmerOf, kmerOf, hmap]
  rw [hn, hk, hlen]

/-- Witness for C9: "AcGt" and "aCgT" give the same result. -/
theorem canonical_kmer_case_insensitive_witness :
    sequence_to_canonical_kmer (fun i => [65, 99, 71, 116].getD i 0) 4 =
      sequence_to_canonical_kmer (fun i => [97, 67, 103, 84].getD i 0) 4 := by
  refine canonical_kmer_case_insensitive [65, 99, 71, 116] [97, 67, 103, 84]
    ?_ (by decide) (by decide)
  refine List.Forall₂.cons (by decide) ?_
  refine List.Forall₂.cons (by decide) ?_
  refine List.Forall₂.cons (by decide) ?_
  refine List.Forall₂.cons (by decide) ?_
  exact List.Forall₂.nil

/-! ### C10: lookup-table access bounds -/

/-- The window positions whose bytes `sequence_to_canonical_kmer` feeds
to `NUCLEOTIDE_TO_TWOBIT`, mirroring the two loops: four positions per
chunked iteration while `i + 4 < k`, then every remaining position up
to `k - 1`. -/
def read_positions (k : Nat) : Nat → Nat → List Nat
  | fuel + 1, i =>
    if i + 4 < k then [i, i + 1, i + 2, i + 3] ++ read_positions k fuel (i + 4)
    else List.range' i (k - i)
  | 0, i => List.range' i (k - i)

def kmer_read_positions (k : Nat) : List Nat := read_positions k k 0

theorem read_positions_mem (k : Nat) : ∀ fuel i p,
    p ∈ read_positions k fuel i ↔ (i ≤ p ∧ p < k) := by
  intro fuel
  induction fuel with
  | zero =>
      intro i p
      rw [read_positions]
      rw [List.mem_range'_1]
      omega
  | succ fuel ih =>
      intro i p
      rw [read_positions]
      by_cases hik : i + 4 < k
      · rw [if_pos hik]
        simp only [List.mem_append, List.mem_cons, List.not_mem_nil, or_false, ih]
        omega
      · rw [if_neg hik]
        rw [List.mem_range'_1]
        omega

theorem kmer_vector_loop_congr (s s' : Nat → Nat) (k : Nat)
    (h : ∀ p, p < k → s p = s' p) : ∀ fuel i km an,
    kmer_vector_loop s k fuel i km an = kmer_vector_loop s' k fuel i km an := by
  intro fuel
  induction fuel with
  | zero => intro i km an; rfl
  | succ fuel ih =>
      intro i km an
      rw [kmer_vector_loop, kmer_vector_loop]
      by_cases hik : i + 4 < k
      · rw [if_pos hik, if_pos hik, h i (by omega), h (i + 1) (by omega),
          h (i + 2) (by omega), h (i + 3) (by omega), ih]
      · rw [if_neg hik, if_neg hik]

theorem kmer_scalar_loop_congr (s s' : Nat → Nat) (k : Nat)
    (h : ∀ p, p < k → s p = s' p) : ∀ fuel i km an,
    kmer_scalar_loop s k fuel i km an = kmer_scalar_loop s' k fuel i km an := by
  intro fuel
  induction fuel with
  | zero => intro i km an; rfl
  | succ fuel ih =>
      intro i km an
      rw [kmer_scalar_loop, kmer_scalar_loop]
      by_cases hik : i < k
      · rw [if_pos hik, if_pos hik, h i (by omega), ih]
      · rw [if_neg hik, if_neg hik]

/-- C10: the lookups `NUCLEOTIDE_TO_TWOBIT[sequence[i]]` performed by
`sequence_to_canonical_kmer` — whose window positions are exactly
`kmer_read_positions k` — all stay inside the 128-entry table iff
every byte of the window is below 128; moreover the function reads the
window only at those positions. -/
theorem kmer_table_lookups_in_bounds (s : Nat → Nat) (k : Nat) :
    ((∀ p ∈ kmer_read_positions k, s p < 128) ↔ (∀ i, i < k → s i < 128)) ∧
    (∀ s' : Nat → Nat, (∀ p ∈ kmer_read_positions k, s p = s' p) →
      sequence_to_canonical_kmer s k = sequence_to_canonical_kmer s' k) := by
  constructor
  · constructor
    · intro h i hik
      exact h i ((read_positions_mem k k 0 i).mpr ⟨Nat.zero_le _, hik⟩)
    · intro h p hp
      exact h p ((read_positions_mem k k 0 p).mp hp).2
  · intro s' hagree
    have h : ∀ p, p < k → s p = s' p := fun p hp =>
      hagree p ((read_positions_mem k k 0 p).mpr ⟨Nat.zero_le _, hp⟩)
    rw [sequence_to_canonical_kmer, sequence_to_canonical_kmer]
    rw [kmer_vector_loop_congr s s' k h, kmer_scalar_loop_congr s s' k h]

/-- Witness for C10's iff at a concrete window. -/
theorem kmer_table_lookups_in_bounds_witness : (65 : Nat) < 128 :=
  ((kmer_table_lookups_in_bounds (fun _ => 65) 4).1).mp
    (fun p _ => by norm_num) 2 (by norm_num)

end Sequali
